import Mathlib

set_option maxRecDepth 100000

/-!
Verification of the Guardrails safety-screening engine and webhook signature
verification of this repository.

The definitions below are a shallow embedding of:
  * `starter_agent_scaffold/app/services/guardrails.py` (class `Guardrails`,
    tables `PII_PATTERNS`, `INJECTION_PATTERNS`) — the SDK copy
    `ai_agent_sdk/ai_agent_sdk/services/guardrails.py` is semantically identical;
  * `starter_agent_scaffold/app/integrations/webhook_integration.py`
    (`verify_signature`, `handle_webhook`) — the framework copy
    `single_agent_framework/single_agent_framework/integrations/webhook.py`
    is semantically identical.

The Python `re` module is embedded by a backtracking matcher over an abstract
syntax of exactly the regex features the pattern tables use: literals,
character classes, greedy counted repetition of a class, concatenation,
ordered alternation, greedy option, and the zero-width word-boundary assertion
`\b`.  The matcher explores alternatives in Python's documented order (left
alternative first, longer repetition first), so the match chosen at a position
is the one Python's engine chooses; `re.search` tries positions left to right
and `re.sub` replaces leftmost non-overlapping matches.  Character classes are
the ASCII readings of `\d`, `\s`, `\w` (the concrete strings in the claims are
ASCII, and Python's `str.lower`/`str.upper` agree with `Char.toLower`/
`Char.toUpper` on ASCII).
-/

/-- ASCII digit, the embedding of the regex class `\d` on ASCII text. -/
def digitChar (c : Char) : Bool := decide ('0' ≤ c) && decide (c ≤ '9')

/-- ASCII whitespace, the embedding of the regex class `\s` on ASCII text. -/
def spaceChar (c : Char) : Bool :=
  c = ' ' || c = '\t' || c = '\n' || c = '\x0b' || c = '\x0c' || c = '\r'

/-- ASCII word character, the class `\w` used by the `\b` assertion. -/
def wordChar (c : Char) : Bool :=
  (decide ('a' ≤ c) && decide (c ≤ 'z')) || (decide ('A' ≤ c) && decide (c ≤ 'Z')) ||
    digitChar c || c = '_'

/-- ASCII letter, the class `[a-zA-Z]`. -/
def alphaChar (c : Char) : Bool :=
  (decide ('a' ≤ c) && decide (c ≤ 'z')) || (decide ('A' ≤ c) && decide (c ≤ 'Z'))

/-- ASCII uppercase letter, the class `[A-Z]`. -/
def upperChar (c : Char) : Bool := decide ('A' ≤ c) && decide (c ≤ 'Z')

/-- Regular-expression abstract syntax covering the constructs appearing in
`PII_PATTERNS` and `INJECTION_PATTERNS`. `rep p lo hi` is greedy counted
repetition of one class character (`hi = none` means unbounded, as in `+` or
`{2,}`); `opt` is the greedy `?`; `alt` is ordered alternation; `wb` is `\b`. -/
inductive RE where
  | eps : RE
  | lit : Char → RE
  | cls : (Char → Bool) → RE
  | rep : (Char → Bool) → Nat → Option Nat → RE
  | cat : RE → RE → RE
  | alt : RE → RE → RE
  | opt : RE → RE
  | wb : RE

/-- The word-boundary test of `\b`: the word-character status of the previous
character (none at string start) differs from that of the next. -/
def boundary (prev : Option Char) (rest : List Char) : Bool :=
  (match prev with | some c => wordChar c | none => false) !=
  (match rest with | c :: _ => wordChar c | [] => false)

/-- Mandatory part of a counted class repetition: consume exactly `n`
class characters, then continue with `k`.  `k` receives the character just
before the remaining input (for later `\b` tests) and the remaining input. -/
def repEx (p : Char → Bool) :
    Nat → Option Char → List Char →
    (Option Char → List Char → Option (Option Char × List Char)) →
    Option (Option Char × List Char)
  | 0, prev, rest, k => k prev rest
  | n + 1, _, rest, k =>
    match rest with
    | [] => none
    | c :: rs => if p c then repEx p n (some c) rs k else none

/-- Optional part of a greedy counted class repetition: consume up to `n`
class characters, preferring to consume more (backtracking into `k`). -/
def repOpt (p : Char → Bool) :
    Nat → Option Char → List Char →
    (Option Char → List Char → Option (Option Char × List Char)) →
    Option (Option Char × List Char)
  | 0, prev, rest, k => k prev rest
  | n + 1, prev, rest, k =>
    match rest with
    | [] => k prev rest
    | c :: rs =>
      if p c then (repOpt p n (some c) rs k) <|> k prev (c :: rs)
      else k prev (c :: rs)

/-- Backtracking matcher in continuation-passing style.  `mtch r prev rest k`
tries to match `r` at the start of `rest` (`prev` is the character before
`rest`, used by `\b`), exploring alternatives in Python's preference order,
and calls `k` on the state after the match.  The first alternative for which
the whole continuation succeeds is the result, exactly as in Python's
backtracking engine. -/
def mtch : RE → Option Char → List Char →
    (Option Char → List Char → Option (Option Char × List Char)) →
    Option (Option Char × List Char)
  | .eps, prev, rest, k => k prev rest
  | .lit c, _, rest, k =>
    (match rest with
     | c' :: rs => if c' = c then k (some c') rs else none
     | [] => none)
  | .cls p, _, rest, k =>
    (match rest with
     | c' :: rs => if p c' then k (some c') rs else none
     | [] => none)
  | .rep p lo hi, prev, rest, k =>
    repEx p lo prev rest (fun prev' rest' =>
      repOpt p ((hi.getD (lo + rest'.length)) - lo) prev' rest' k)
  | .cat a b, prev, rest, k => mtch a prev rest (fun prev' rest' => mtch b prev' rest' k)
  | .alt a b, prev, rest, k => (mtch a prev rest k) <|> (mtch b prev rest k)
  | .opt a, prev, rest, k => (mtch a prev rest k) <|> k prev rest
  | .wb, prev, rest, k => if boundary prev rest then k prev rest else none

/-- Python's preferred match of `r` at the current position, if any: returns
the character just before the unmatched remainder and the remainder itself. -/
def matchHere (r : RE) (prev : Option Char) (rest : List Char) :
    Option (Option Char × List Char) :=
  mtch r prev rest (fun prev' rest' => some (prev', rest'))

/-- `re.search` semantics: try to match at each position, left to right. -/
def searchAux (r : RE) : Option Char → List Char → Bool
  | prev, rest =>
    (matchHere r prev rest).isSome ||
      match rest with
      | [] => false
      | c :: rs => searchAux r (some c) rs

/-- `bool(re.search(r, s))`. -/
def reSearch (r : RE) (s : List Char) : Bool := searchAux r none s

/-- One scan of `re.sub`: replace leftmost non-overlapping matches of `r` by
`tok`, continuing the scan on the remainder of the original input (so `\b` at
the resumption point still sees the original neighbouring characters).  An
empty match emits the replacement and copies one character (Python ≥ 3.7
semantics; no pattern in the tables can match the empty string).  `fuel`
bounds the recursion; every step consumes at least one input character, so
`length + 1` fuel is always sufficient and the fallback is never reached. -/
def subAux (r : RE) (tok : List Char) : Nat → Option Char → List Char → List Char
  | 0, _, rest => rest
  | fuel + 1, prev, rest =>
    match matchHere r prev rest with
    | some (prev', rem) =>
      if rem.length = rest.length then
        match rest with
        | [] => tok
        | c :: rs => tok ++ c :: subAux r tok fuel (some c) rs
      else tok ++ subAux r tok fuel prev' rem
    | none =>
      match rest with
      | [] => []
      | c :: rs => c :: subAux r tok fuel (some c) rs

/-- `re.sub(r, tok, s)`. -/
def reSub (r : RE) (tok : List Char) (s : List Char) : List Char :=
  subAux r tok (s.length + 1) none s

/-- Concatenation of single-character literals, for literal words in patterns. -/
def strRE (s : String) : RE := s.data.foldr (fun c acc => RE.cat (RE.lit c) acc) RE.eps

example : reSearch (strRE "abc") "xxabcyy".data = true := by decide
example : reSearch (strRE "abc") "xxabyy".data = false := by decide
example : reSub (strRE "ab") "Z".data "abxabab".data = "ZxZZ".data := by decide

/-! ## The PII pattern table

`PII_PATTERNS` of `guardrails.py`, a Python dict whose insertion order
(email, phone, ssn, credit_card, ip_address, aadhaar, pan) is the iteration
order used by detection and redaction. -/

/-- `[-.\s]`, the separator class of the phone pattern. -/
def phoneSep (c : Char) : Bool := c = '-' || c = '.' || spaceChar c

/-- `[-\s]`, the separator class of the credit-card pattern. -/
def ccSep (c : Char) : Bool := c = '-' || spaceChar c

/-- `[a-zA-Z0-9._%+-]`, the local-part class of the email pattern. -/
def emailLocalChar (c : Char) : Bool :=
  alphaChar c || digitChar c || c = '.' || c = '_' || c = '%' || c = '+' || c = '-'

/-- `[a-zA-Z0-9.-]`, the domain class of the email pattern. -/
def emailDomainChar (c : Char) : Bool :=
  alphaChar c || digitChar c || c = '.' || c = '-'

/-- `"email": r"[a-zA-Z0-9._%+-]+@[a-zA-Z0-9.-]+\.[a-zA-Z]{2,}"` -/
def emailRE : RE :=
  .cat (.rep emailLocalChar 1 none) (.cat (.lit '@')
    (.cat (.rep emailDomainChar 1 none) (.cat (.lit '.') (.rep alphaChar 2 none))))

/-- `"phone": r"(?:\+?\d{1,3}[-.\s]?)?\(?\d{2,4}\)?[-.\s]?\d{3,4}[-.\s]?\d{3,4}"` -/
def phoneRE : RE :=
  .cat (.opt (.cat (.opt (.lit '+')) (.cat (.rep digitChar 1 (some 3)) (.opt (.cls phoneSep)))))
    (.cat (.opt (.lit '(')) (.cat (.rep digitChar 2 (some 4)) (.cat (.opt (.lit ')'))
      (.cat (.opt (.cls phoneSep)) (.cat (.rep digitChar 3 (some 4))
        (.cat (.opt (.cls phoneSep)) (.rep digitChar 3 (some 4))))))))

/-- `"ssn": r"\b\d{3}-\d{2}-\d{4}\b"` -/
def ssnRE : RE :=
  .cat .wb (.cat (.rep digitChar 3 (some 3)) (.cat (.lit '-')
    (.cat (.rep digitChar 2 (some 2)) (.cat (.lit '-') (.cat (.rep digitChar 4 (some 4)) .wb)))))

/-- One `\d{4}[-\s]?` group of the credit-card pattern. -/
def ccGroupRE : RE := .cat (.rep digitChar 4 (some 4)) (.opt (.cls ccSep))

/-- `"credit_card": r"\b(?:\d{4}[-\s]?){3}\d{4}\b"` (the `{3}` unrolled). -/
def creditCardRE : RE :=
  .cat .wb (.cat ccGroupRE (.cat ccGroupRE (.cat ccGroupRE
    (.cat (.rep digitChar 4 (some 4)) .wb))))

/-- `"ip_address": r"\b\d{1,3}\.\d{1,3}\.\d{1,3}\.\d{1,3}\b"` -/
def ipAddressRE : RE :=
  .cat .wb (.cat (.rep digitChar 1 (some 3)) (.cat (.lit '.')
    (.cat (.rep digitChar 1 (some 3)) (.cat (.lit '.')
      (.cat (.rep digitChar 1 (some 3)) (.cat (.lit '.')
        (.cat (.rep digitChar 1 (some 3)) .wb)))))))

/-- `"aadhaar": r"\b\d{4}\s?\d{4}\s?\d{4}\b"` -/
def aadhaarRE : RE :=
  .cat .wb (.cat (.rep digitChar 4 (some 4)) (.cat (.opt (.cls spaceChar))
    (.cat (.rep digitChar 4 (some 4)) (.cat (.opt (.cls spaceChar))
      (.cat (.rep digitChar 4 (some 4)) .wb)))))

/-- `"pan": r"\b[A-Z]{5}\d{4}[A-Z]\b"` -/
def panRE : RE :=
  .cat .wb (.cat (.rep upperChar 5 (some 5)) (.cat (.rep digitChar 4 (some 4))
    (.cat (.rep upperChar 1 (some 1)) .wb)))

/-- The ordered PII catalog `PII_PATTERNS`: category name paired with its
compiled pattern, in the dict's insertion order. -/
def PII_PATTERNS : List (String × RE) :=
  [("email", emailRE), ("phone", phoneRE), ("ssn", ssnRE), ("credit_card", creditCardRE),
   ("ip_address", ipAddressRE), ("aadhaar", aadhaarRE), ("pan", panRE)]

/-! ## The injection pattern table

`INJECTION_PATTERNS` of `guardrails.py`, an ordered list.  Each entry keeps
the raw Python pattern string (which `detect_injection` reports on a match)
next to its compiled form. -/

/-- `\s+` -/
def spacesRE : RE := .rep spaceChar 1 none

/-- `w1\s+w2` for literal words. -/
def w2RE (a b : String) : RE := .cat (strRE a) (.cat spacesRE (strRE b))

/-- `w1\s+w2\s+w3` for literal words. -/
def w3RE (a b c : String) : RE := .cat (strRE a) (.cat spacesRE (w2RE b c))

/-- `(w\s+)?`, an optional literal word followed by whitespace. -/
def optWordRE (w : String) : RE := .opt (.cat (strRE w) spacesRE)

/-- The ordered injection catalog `INJECTION_PATTERNS`: raw pattern string
paired with its compiled form.
```
r"ignore\s+(all\s+)?previous\s+instructions", r"ignore\s+the\s+above",
r"disregard\s+(all\s+)?previous", r"forget\s+(all\s+)?(your\s+)?instructions",
r"you\s+are\s+now\s+a", r"act\s+as\s+if", r"pretend\s+(you\s+are|to\s+be)",
r"override\s+(your\s+)?(system|safety)", r"jailbreak", r"DAN\s+mode",
r"\[system\]", r"<\|system\|>"
```
-/
def INJECTION_PATTERNS : List (String × RE) :=
  [("ignore\\s+(all\\s+)?previous\\s+instructions",
    .cat (strRE "ignore") (.cat spacesRE (.cat (optWordRE "all") (w2RE "previous" "instructions")))),
   ("ignore\\s+the\\s+above", w3RE "ignore" "the" "above"),
   ("disregard\\s+(all\\s+)?previous",
    .cat (strRE "disregard") (.cat spacesRE (.cat (optWordRE "all") (strRE "previous")))),
   ("forget\\s+(all\\s+)?(your\\s+)?instructions",
    .cat (strRE "forget") (.cat spacesRE (.cat (optWordRE "all")
      (.cat (optWordRE "your") (strRE "instructions"))))),
   ("you\\s+are\\s+now\\s+a",
    .cat (strRE "you") (.cat spacesRE (.cat (strRE "are") (.cat spacesRE (w2RE "now" "a"))))),
   ("act\\s+as\\s+if", w3RE "act" "as" "if"),
   ("pretend\\s+(you\\s+are|to\\s+be)",
    .cat (strRE "pretend") (.cat spacesRE (.alt (w2RE "you" "are") (w2RE "to" "be")))),
   ("override\\s+(your\\s+)?(system|safety)",
    .cat (strRE "override") (.cat spacesRE (.cat (optWordRE "your")
      (.alt (strRE "system") (strRE "safety"))))),
   ("jailbreak", strRE "jailbreak"),
   ("DAN\\s+mode", w2RE "DAN" "mode"),
   ("\\[system\\]", strRE "[system]"),
   ("<\\|system\\|>", strRE "<|system|>")]

/-! ## The Guardrails service

Embedding of class `Guardrails` of `guardrails.py`.  Warning messages are
abstracted from Python f-strings into the inductive `Warning` (one constructor
per `warnings.append`/`extend` site, carrying the interpolated data); the
claims under verification depend only on which warnings are present, not on
their rendered text.  `confidence`/`min_confidence` are Python floats used
only in one `<` comparison; they are modelled as rationals. -/

/-- `str.lower()` (ASCII; `Char.toLower` lowercases exactly `A`–`Z`). -/
def pyLower (s : String) : String := String.mk (s.data.map Char.toLower)

/-- `str.upper()` (ASCII; `Char.toUpper` uppercases exactly `a`–`z`). -/
def pyUpper (s : String) : String := String.mk (s.data.map Char.toUpper)

/-- Result dict of `Guardrails.detect_injection`:
`{"detected": ..., "pattern": ...}` (`pattern` is the raw regex source string,
`None` when nothing matched). -/
structure InjectionResult where
  detected : Bool
  pattern : Option String
deriving DecidableEq, Repr

/-- Result dict of `Guardrails.detect_pii`: `{"found": ..., "types": ...}`. -/
structure PiiResult where
  found : Bool
  types : List String
deriving DecidableEq, Repr

/-- One entry of a verdict's `warnings` list, one constructor per append site
in `check_input`/`check_output`, abstracting the f-string rendering. -/
inductive Warning where
  | injectionDetected (pattern : Option String)
  | piiDetected (t : String)
  | piiInOutput (t : String)
  | lowConfidence (confidence minConfidence : ℚ)
deriving DecidableEq, Repr

/-- Return dict of `Guardrails.check_input`.  The `reason` key is only present
in the blocked branch of the source; here it is an `Option` that the
non-blocked branch leaves at `none`. -/
structure InputVerdict where
  is_safe : Bool
  warnings : List Warning
  sanitized_text : String
  blocked : Bool
  reason : Option String := none
deriving DecidableEq, Repr

/-- Return dict of `Guardrails.check_output`.  The source dict has exactly the
keys `is_safe`, `warnings`, `sanitized_text` — there is no `blocked` key. -/
structure OutputVerdict where
  is_safe : Bool
  warnings : List Warning
  sanitized_text : String
deriving DecidableEq, Repr

/-- Constructor state of `Guardrails(pii_filter=True, injection_detection=True)`. -/
structure Guardrails where
  pii_filter : Bool := true
  injection_detection : Bool := true
deriving DecidableEq, Repr

namespace Guardrails

/-- `Guardrails.detect_injection`: lowercase the text, then return on the
first pattern in `INJECTION_PATTERNS` that `re.search` finds in it; otherwise
`{"detected": False, "pattern": None}`.  (`self` is unused by the source.) -/
def detect_injection (text : String) : InjectionResult :=
  match INJECTION_PATTERNS.find? (fun pr => reSearch pr.2 (pyLower text).data) with
  | some pr => ⟨true, some pr.1⟩
  | none => ⟨false, none⟩

/-- `Guardrails.detect_pii`: collect the names of every catalog entry whose
pattern `re.search`-matches the text; `found` is `len(found_types) > 0`. -/
def detect_pii (text : String) : PiiResult :=
  let found_types := (PII_PATTERNS.filter (fun pr => reSearch pr.2 text.data)).map Prod.fst
  ⟨decide (0 < found_types.length), found_types⟩

/-- The replacement token `f"[REDACTED_{pii_type.upper()}]"`. -/
def redactToken (pii_type : String) : String := "[REDACTED_" ++ pyUpper pii_type ++ "]"

/-- `Guardrails.redact_pii`: fold `re.sub` over the catalog in order,
each category's matches replaced by its token. -/
def redact_pii (text : String) : String :=
  String.mk (PII_PATTERNS.foldl (fun acc pr => reSub pr.2 (redactToken pr.1).data acc) text.data)

/-- `Guardrails.check_input`: if injection detection is enabled and
`detect_injection` fires, return the blocked verdict immediately (original
text echoed, reason `"prompt_injection"`); otherwise run the PII branch:
warnings per detected category and `sanitized = redact_pii(text)` when PII is
found, then the non-blocked verdict. -/
def check_input (g : Guardrails) (text : String) : InputVerdict :=
  let piiVerdict : InputVerdict :=
    if g.pii_filter then
      let pii := detect_pii text
      if pii.found then
        { is_safe := true, warnings := pii.types.map .piiDetected,
          sanitized_text := redact_pii text, blocked := false }
      else
        { is_safe := true, warnings := [], sanitized_text := text, blocked := false }
    else
      { is_safe := true, warnings := [], sanitized_text := text, blocked := false }
  if g.injection_detection then
    match detect_injection text with
    | ⟨true, p⟩ =>
      { is_safe := false, warnings := [.injectionDetected p], sanitized_text := text,
        blocked := true, reason := some "prompt_injection" }
    | ⟨false, _⟩ => piiVerdict
  else piiVerdict

/-- `Guardrails.check_output`: a low-confidence warning when
`confidence < min_confidence`, then the PII branch (warnings and redaction on
hits); `is_safe` is `len(warnings) == 0` and the returned dict has no
`blocked` key. -/
def check_output (g : Guardrails) (text : String)
    (confidence : ℚ := 1) (min_confidence : ℚ := 1 / 2) : OutputVerdict :=
  let confWarnings : List Warning :=
    if confidence < min_confidence then [.lowConfidence confidence min_confidence] else []
  let piiPart : List Warning × String :=
    if g.pii_filter then
      let pii := detect_pii text
      if pii.found then (pii.types.map .piiInOutput, redact_pii text) else ([], text)
    else ([], text)
  { is_safe := (confWarnings ++ piiPart.1).isEmpty,
    warnings := confWarnings ++ piiPart.1,
    sanitized_text := piiPart.2 }

/-- `text[:max_chars]`, Python string slicing by characters. -/
def pySlice (text : String) (max_chars : Nat) : String := String.mk (text.data.take max_chars)

/-- `Guardrails.enforce_token_limit`: truncate to `max_chars` characters and
append the literal marker when the text is longer, else return it unchanged. -/
def enforce_token_limit (text : String) (max_chars : Nat := 10000) : String :=
  if text.length > max_chars then pySlice text max_chars ++ "\n[TRUNCATED]" else text

end Guardrails

example : Guardrails.detect_injection "DAN mode" = ⟨false, none⟩ := by decide
example : Guardrails.detect_injection "jailbreak now" = ⟨true, some "jailbreak"⟩ := by decide
example : (Guardrails.detect_pii "My email is alice@example.com and my phone is 555-123-4567").types
    = ["email", "phone"] := by decide
example : Guardrails.redact_pii "My email is alice@example.com and my phone is 555-123-4567"
    = "My email is [REDACTED_EMAIL] and my phone is [REDACTED_PHONE]" := by decide
example : Guardrails.redact_pii "1234 5678 9012 3456" = "[REDACTED_PHONE] 3456" := by decide
example : Guardrails.detect_pii "" = ⟨false, []⟩ := by decide
example : Guardrails.enforce_token_limit "Hello" 10000 = "Hello" := by decide

/-! ## SHA-256, HMAC and webhook signature verification

Embedding of `hashlib.sha256` / `hmac.new(..., hashlib.sha256)` (FIPS 180-4 /
RFC 2104) over byte lists (naturals `< 256`), and of `verify_signature` and
the signature-checking prefix of `handle_webhook` from
`webhook_integration.py`. -/

/-- Addition modulo `2^32`. -/
def add32 (a b : Nat) : Nat := (a + b) % 4294967296

/-- Right rotation of a 32-bit word by `n`. -/
def rotr32 (n x : Nat) : Nat := x / 2 ^ n + x % 2 ^ n * 2 ^ (32 - n)

/-- Logical right shift of a 32-bit word by `n`. -/
def shr32 (n x : Nat) : Nat := x / 2 ^ n

/-- Bitwise complement of a 32-bit word. -/
def not32 (x : Nat) : Nat := Nat.xor x 4294967295

/-- SHA-256 `Ch(e,f,g)`. -/
def sha256Ch (e f g : Nat) : Nat := Nat.xor (Nat.land e f) (Nat.land (not32 e) g)

/-- SHA-256 `Maj(a,b,c)`. -/
def sha256Maj (a b c : Nat) : Nat :=
  Nat.xor (Nat.xor (Nat.land a b) (Nat.land a c)) (Nat.land b c)

/-- SHA-256 `Σ0`. -/
def bigSigma0 (x : Nat) : Nat := Nat.xor (Nat.xor (rotr32 2 x) (rotr32 13 x)) (rotr32 22 x)

/-- SHA-256 `Σ1`. -/
def bigSigma1 (x : Nat) : Nat := Nat.xor (Nat.xor (rotr32 6 x) (rotr32 11 x)) (rotr32 25 x)

/-- SHA-256 `σ0`. -/
def smallSigma0 (x : Nat) : Nat := Nat.xor (Nat.xor (rotr32 7 x) (rotr32 18 x)) (shr32 3 x)

/-- SHA-256 `σ1`. -/
def smallSigma1 (x : Nat) : Nat := Nat.xor (Nat.xor (rotr32 17 x) (rotr32 19 x)) (shr32 10 x)

/-- The 64 SHA-256 round constants `K`. -/
def K256 : List Nat :=
  [1116352408, 1899447441, 3049323471, 3921009573, 961987163,
   1508970993, 2453635748, 2870763221, 3624381080, 310598401,
   607225278, 1426881987, 1925078388, 2162078206, 2614888103,
   3248222580, 3835390401, 4022224774, 264347078, 604807628,
   770255983, 1249150122, 1555081692, 1996064986, 2554220882,
   2821834349, 2952996808, 3210313671, 3336571891, 3584528711,
   113926993, 338241895, 666307205, 773529912, 1294757372,
   1396182291, 1695183700, 1986661051, 2177026350, 2456956037,
   2730485921, 2820302411, 3259730800, 3345764771, 3516065817,
   3600352804, 4094571909, 275423344, 430227734, 506948616,
   659060556, 883997877, 958139571, 1322822218, 1537002063,
   1747873779, 1955562222, 2024104815, 2227730452, 2361852424,
   2428436474, 2756734187, 3204031479, 3329325298]

/-- A SHA-256 working state / hash value of eight 32-bit words. -/
structure H8 where
  a : Nat
  b : Nat
  c : Nat
  d : Nat
  e : Nat
  f : Nat
  g : Nat
  h : Nat
deriving DecidableEq, Repr

/-- The SHA-256 initial hash value. -/
def sha256Init : H8 :=
  ⟨1779033703, 3144134277, 1013904242, 2773480762,
   1359893119, 2600822924, 528734635, 1541459225⟩

/-- Big-endian bytes to 32-bit words, four at a time. -/
def bytesToWords : List Nat → List Nat
  | b0 :: b1 :: b2 :: b3 :: rest => (((b0 * 256 + b1) * 256 + b2) * 256 + b3) :: bytesToWords rest
  | _ => []

/-- Extend the message schedule by `n` further words; `acc` holds the words
produced so far, most recent first. -/
def extendW : Nat → List Nat → List Nat
  | 0, acc => acc
  | n + 1, acc =>
    let w := add32 (add32 (smallSigma1 (acc.getD 1 0)) (acc.getD 6 0))
      (add32 (smallSigma0 (acc.getD 14 0)) (acc.getD 15 0))
    extendW n (w :: acc)

/-- The 64-word message schedule of a block given as 16 words. -/
def sha256Schedule (w16 : List Nat) : List Nat := (extendW 48 w16.reverse).reverse

/-- One SHA-256 compression round. -/
def sha256Round (st : H8) (kw : Nat × Nat) : H8 :=
  let t1 := add32 st.h (add32 (bigSigma1 st.e) (add32 (sha256Ch st.e st.f st.g)
    (add32 kw.1 kw.2)))
  let t2 := add32 (bigSigma0 st.a) (sha256Maj st.a st.b st.c)
  ⟨add32 t1 t2, st.a, st.b, st.c, add32 st.d t1, st.e, st.f, st.g⟩

/-- Process one padded 64-byte block. -/
def sha256Block (st : H8) (block : List Nat) : H8 :=
  let fin := (K256.zip (sha256Schedule (bytesToWords block))).foldl sha256Round st
  ⟨add32 st.a fin.a, add32 st.b fin.b, add32 st.c fin.c, add32 st.d fin.d,
   add32 st.e fin.e, add32 st.f fin.f, add32 st.g fin.g, add32 st.h fin.h⟩

/-- Split a padded message into 64-byte blocks (`fuel` bounds the recursion;
the message length is always sufficient fuel). -/
def splitBlocks : Nat → List Nat → List (List Nat)
  | 0, _ => []
  | _, [] => []
  | fuel + 1, l => l.take 64 :: splitBlocks fuel (l.drop 64)

/-- The 8-byte big-endian encoding of `n`. -/
def be64 (n : Nat) : List Nat :=
  [n / 2 ^ 56 % 256, n / 2 ^ 48 % 256, n / 2 ^ 40 % 256, n / 2 ^ 32 % 256,
   n / 2 ^ 24 % 256, n / 2 ^ 16 % 256, n / 2 ^ 8 % 256, n % 256]

/-- SHA-256 padding: `0x80`, zeros to 56 mod 64, then the bit length. -/
def sha256Pad (msg : List Nat) : List Nat :=
  let zeros := (64 + 55 - msg.length % 64) % 64
  msg ++ 0x80 :: List.replicate zeros 0 ++ be64 (8 * msg.length)

/-- The 4-byte big-endian encoding of a 32-bit word. -/
def wordBytes (w : Nat) : List Nat := [w / 2 ^ 24 % 256, w / 2 ^ 16 % 256, w / 2 ^ 8 % 256, w % 256]

/-- `hashlib.sha256(msg).digest()` over byte lists. -/
def sha256Bytes (msg : List Nat) : List Nat :=
  let padded := sha256Pad msg
  let st := (splitBlocks padded.length padded).foldl sha256Block sha256Init
  [st.a, st.b, st.c, st.d, st.e, st.f, st.g, st.h].flatMap wordBytes

/-- The lowercase hex digit of `n < 16`. -/
def hexDigit (n : Nat) : Char := if n < 10 then Char.ofNat (48 + n) else Char.ofNat (87 + n)

/-- Lowercase hex encoding of a byte list, as in `.hexdigest()`. -/
def bytesHex (bs : List Nat) : String :=
  String.mk (bs.flatMap (fun b => [hexDigit (b / 16), hexDigit (b % 16)]))

/-- `hmac.new(key, msg, hashlib.sha256).digest()` (RFC 2104, block size 64). -/
def hmacSha256 (key msg : List Nat) : List Nat :=
  let k0 := if key.length > 64 then sha256Bytes key else key
  let kpad := k0 ++ List.replicate (64 - k0.length) 0
  let ipad := kpad.map (fun b => Nat.xor b 0x36)
  let opad := kpad.map (fun b => Nat.xor b 0x5c)
  sha256Bytes (opad ++ sha256Bytes (ipad ++ msg))

/-- `"sha256=" + hmac.new(secret.encode(), payload, sha256).hexdigest()`, the
expected signature header value for a body and secret (`secret.encode()` is
UTF-8; on the ASCII secrets of the claims it is the code points). -/
def expectedSignature (secret : String) (payload : List Nat) : String :=
  "sha256=" ++ bytesHex (hmacSha256 (secret.data.map Char.toNat) payload)

/-- `verify_signature(payload, signature, secret)` of
`webhook_integration.py`: compute the HMAC-SHA256 hex digest of the payload
keyed by the secret, prefix `"sha256="`, and compare with the provided header
(`hmac.compare_digest`, a constant-time string equality — the timing aspect is
not modelled, its result is equality). -/
def verify_signature (payload : List Nat) (signature : String) (secret : String) : Bool :=
  expectedSignature secret payload == signature

example : bytesHex (sha256Bytes []) =
    "e3b0c44298fc1c149afbf4c8996fb92427ae41e4649b934ca495991b7852b855" := by decide
example : bytesHex (sha256Bytes ("abc".data.map Char.toNat)) =
    "ba7816bf8f01cfea414140de5dae2223b00361a396177a9cb410ff61f20015ad" := by decide
example : bytesHex (hmacSha256 ("key".data.map Char.toNat)
      (("The quick brown fox jumps over the lazy dog").data.map Char.toNat)) =
    "f7bc83f430538424b13298e6aa6fb143ef4d59a14946175997479dbc2d1a3cd8" := by decide

/-! ## The webhook handler's signature gate

The async FastAPI endpoint `handle_webhook` reads the raw body and
`WEBHOOK_SECRET`, then:
```
if secret and x_webhook_signature:
    if not verify_signature(raw_body, x_webhook_signature, secret):
        raise HTTPException(status_code=401, detail="Invalid signature")
elif secret and not x_webhook_signature:
    raise HTTPException(status_code=401, detail="Missing X-Webhook-Signature header")
```
and only past this gate parses the payload and calls the agent.  The outcome
is modelled as either a raised `HTTPException` (status, detail) or the
response produced by the rest of the handler, abstracted as an arbitrary
function `agent` of the raw body.  Python truthiness of the optional strings
(`None` and `""` are falsy) is modelled by `pyTruthy`. -/

/-- Python truthiness of an `Optional[str]`: `None` and `""` are falsy. -/
def pyTruthy : Option String → Bool
  | none => false
  | some s => !s.isEmpty

/-- Outcome of one `handle_webhook` request. -/
inductive WebhookOutcome where
  | httpError (status : Nat) (detail : String)
  | response (output : String)
deriving DecidableEq, Repr

/-- The signature gate of `handle_webhook`:  with a truthy secret and a truthy
header, reject with 401 unless `verify_signature` accepts; with a truthy
secret and no truthy header, reject with 401; otherwise (no secret configured)
skip verification.  Every non-rejecting path continues into the rest of the
handler (`agent`). -/
def handle_webhook (secret x_webhook_signature : Option String) (raw_body : List Nat)
    (agent : List Nat → String) : WebhookOutcome :=
  if pyTruthy secret && pyTruthy x_webhook_signature then
    if verify_signature raw_body (x_webhook_signature.getD "") (secret.getD "") then
      .response (agent raw_body)
    else .httpError 401 "Invalid signature"
  else if pyTruthy secret && !pyTruthy x_webhook_signature then
    .httpError 401 "Missing X-Webhook-Signature header"
  else .response (agent raw_body)

example : reSearch emailRE "My email is alice@example.com ok".data = true := by decide
example : reSearch phoneRE "call 555-123-4567".data = true := by decide
example : reSearch ssnRE "x 123-45-6789 y".data = true := by decide
example : reSearch ssnRE "x123-45-6789 y".data = false := by decide
example : reSub phoneRE "P".data "1234 5678 9012 3456".data = "P 3456".data := by decide
example : reSearch aadhaarRE "id 1234 5678 9012 end".data = true := by decide
example : reSearch panRE "pan ABCDE1234X end".data = true := by decide
example : reSearch ipAddressRE "ip 10.0.0.1 end".data = true := by decide

/-! ## Declarative match semantics

To reason about `re.sub` outputs (for the idempotence of redaction) we relate
the executable backtracking matcher to a declarative relation `MatM r prev cs
nxt`: pattern `r`, with `prev` the character before the match and `nxt` the
character after it, can consume exactly the list `cs`.  The executable
matcher is proved sound and complete for this relation. -/

/-- The last character of `cs`, or `prev` when `cs` is empty: the character
preceding whatever follows a match that consumed `cs`. -/
def lastOpt (cs : List Char) (prev : Option Char) : Option Char := cs.getLast?.or prev

/-- The word-boundary test expressed on the two neighbouring characters. -/
def boundaryO (prev nxt : Option Char) : Bool :=
  (match prev with | some c => wordChar c | none => false) !=
  (match nxt with | some c => wordChar c | none => false)

/-- Declarative match relation: `MatM r prev cs nxt` holds when `r` can match
exactly the characters `cs`, in a position where the preceding character is
`prev` and the following character is `nxt` (both `none` at the text ends). -/
inductive MatM : RE → Option Char → List Char → Option Char → Prop where
  | eps (prev nxt) : MatM .eps prev [] nxt
  | lit (prev c nxt) : MatM (.lit c) prev [c] nxt
  | cls (prev p c nxt) : p c = true → MatM (.cls p) prev [c] nxt
  | rep (prev p lo hi cs nxt) : (∀ c ∈ cs, p c = true) → lo ≤ cs.length →
      (∀ h, hi = some h → cs.length ≤ h) → MatM (.rep p lo hi) prev cs nxt
  | cat (prev a b cs1 cs2 nxt) :
      MatM a prev cs1 (cs2.head?.or nxt) →
      MatM b (lastOpt cs1 prev) cs2 nxt →
      MatM (.cat a b) prev (cs1 ++ cs2) nxt
  | altL (prev a b cs nxt) : MatM a prev cs nxt → MatM (.alt a b) prev cs nxt
  | altR (prev a b cs nxt) : MatM b prev cs nxt → MatM (.alt a b) prev cs nxt
  | optS (prev a cs nxt) : MatM a prev cs nxt → MatM (.opt a) prev cs nxt
  | optN (prev a nxt) : MatM (.opt a) prev [] nxt
  | wb (prev nxt) : boundaryO prev nxt = true → MatM .wb prev [] nxt

/-- Well-formedness of counted repetitions (`lo ≤ hi`), true of every pattern
in the tables. -/
def wfRE : RE → Bool
  | .rep _ lo hi => (match hi with | none => true | some h => decide (lo ≤ h))
  | .cat a b => wfRE a && wfRE b
  | .alt a b => wfRE a && wfRE b
  | .opt a => wfRE a
  | _ => true

/-- Nullability: can the pattern match the empty string. -/
def nullableRE : RE → Bool
  | .eps => true
  | .lit _ => false
  | .cls _ => false
  | .rep _ lo _ => decide (lo = 0)
  | .cat a b => nullableRE a && nullableRE b
  | .alt a b => nullableRE a || nullableRE b
  | .opt _ => true
  | .wb => true

/-- The characters a pattern can possibly consume. -/
def charsOf : RE → Char → Bool
  | .eps, _ => false
  | .lit c, d => decide (d = c)
  | .cls p, d => p d
  | .rep p _ _, d => p d
  | .cat a b, d => charsOf a d || charsOf b d
  | .alt a b, d => charsOf a d || charsOf b d
  | .opt a, d => charsOf a d
  | .wb, _ => false

/-- Does the pattern only ever match the empty string. -/
def onlyEmptyRE : RE → Bool
  | .eps => true
  | .lit _ => false
  | .cls _ => false
  | .rep _ _ hi => decide (hi = some 0)
  | .cat a b => onlyEmptyRE a && onlyEmptyRE b
  | .alt a b => onlyEmptyRE a && onlyEmptyRE b
  | .opt a => onlyEmptyRE a
  | .wb => true

/-- Is the pattern free of word-boundary assertions. -/
def wbFreeRE : RE → Bool
  | .eps => true
  | .lit _ => true
  | .cls _ => true
  | .rep _ _ _ => true
  | .cat a b => wbFreeRE a && wbFreeRE b
  | .alt a b => wbFreeRE a && wbFreeRE b
  | .opt a => wbFreeRE a
  | .wb => false

/-- Sufficient condition for: every match of the pattern is non-empty and its
first character satisfies `P`. -/
def FirstCharP (P : Char → Bool) : RE → Prop
  | .eps => False
  | .lit c => P c = true
  | .cls q => ∀ c, q c = true → P c = true
  | .rep q lo _ => 0 < lo ∧ ∀ c, q c = true → P c = true
  | .cat a b => FirstCharP P a ∨ (onlyEmptyRE a = true ∧ FirstCharP P b)
  | .alt a b => FirstCharP P a ∧ FirstCharP P b
  | .opt _ => False
  | .wb => False

/-- Sufficient condition for: every match of the pattern is non-empty and its
last character satisfies `P`. -/
def LastCharP (P : Char → Bool) : RE → Prop
  | .eps => False
  | .lit c => P c = true
  | .cls q => ∀ c, q c = true → P c = true
  | .rep q lo _ => 0 < lo ∧ ∀ c, q c = true → P c = true
  | .cat a b => LastCharP P b ∨ (onlyEmptyRE b = true ∧ LastCharP P a)
  | .alt a b => LastCharP P a ∧ LastCharP P b
  | .opt _ => False
  | .wb => False

/-- Sufficient condition for: every match of the pattern asserts a word
boundary at its start. -/
def StartsWB : RE → Prop
  | .cat a b => StartsWB a ∨ (onlyEmptyRE a = true ∧ StartsWB b)
  | .alt a b => StartsWB a ∧ StartsWB b
  | .wb => True
  | _ => False

/-- Sufficient condition for: every match of the pattern asserts a word
boundary at its end. -/
def EndsWB : RE → Prop
  | .cat a b => EndsWB b ∨ (onlyEmptyRE b = true ∧ EndsWB a)
  | .alt a b => EndsWB a ∧ EndsWB b
  | .wb => True
  | _ => False

/-- Sufficient condition for: every match of the pattern contains a character
satisfying `P`. -/
def MandatoryP (P : Char → Bool) : RE → Prop
  | .eps => False
  | .lit c => P c = true
  | .cls q => ∀ c, q c = true → P c = true
  | .rep q lo _ => 0 < lo ∧ ∀ c, q c = true → P c = true
  | .cat a b => MandatoryP P a ∨ MandatoryP P b
  | .alt a b => MandatoryP P a ∧ MandatoryP P b
  | .opt _ => False
  | .wb => False

/-- Decomposition of one `re.sub` scan: `SubD r tok prev x y` holds when the
scan of `x` (with `prev` the character before it) produces `y`, where every
copied character is a position at which `matchHere` failed, and every replaced
chunk is a non-empty declarative match whose replacement is `tok`. -/
inductive SubD (r : RE) (tok : List Char) : Option Char → List Char → List Char → Prop where
  | nil (prev) : SubD r tok prev [] []
  | copy (prev c rest out) : matchHere r prev (c :: rest) = none →
      SubD r tok (some c) rest out → SubD r tok prev (c :: rest) (c :: out)
  | repl (prev mcs rem out) : mcs ≠ [] → MatM r prev mcs rem.head? →
      SubD r tok (lastOpt mcs prev) rem out → SubD r tok prev (mcs ++ rem) (tok ++ out)

/-! ## Claim theorems -/

/-- C2 (code bug): the injection catalog contains the pattern `r"DAN\s+mode"`
precisely to catch the named "DAN mode" jailbreak marker, and the text
`"DAN mode"` matches that pattern (case-insensitively, indeed literally) —
yet `detect_injection` returns `detected=False, pattern=None` on it, because
the detector lowercases the text before matching and the pattern's uppercase
`DAN` can then never match.  The pattern is dead code and the claimed
"detected iff some catalog pattern matches case-insensitively" fails. -/
theorem detect_injection_misses_dan_mode :
    Guardrails.detect_injection "DAN mode" = ⟨false, none⟩ ∧
    reSearch (w2RE "DAN" "mode") "DAN mode".data = true ∧
    "DAN\\s+mode" ∈ INJECTION_PATTERNS.map Prod.fst := by decide

/-- C5: `verify_signature(body, sig, secret)` accepts exactly the string
`"sha256=" ++ <lowercase hex of HMAC-SHA256(secret, body)>`; in particular the
correctly computed signature is accepted and every other string is refused. -/
theorem verify_signature_iff_expected (payload : List Nat) (signature : String)
    (secret : String) :
    (verify_signature payload signature secret = true ↔
      signature = "sha256=" ++ bytesHex (hmacSha256 (secret.data.map Char.toNat) payload)) ∧
    verify_signature payload
      ("sha256=" ++ bytesHex (hmacSha256 (secret.data.map Char.toNat) payload)) secret = true := by
  unfold verify_signature expectedSignature
  refine ⟨⟨fun h => (eq_of_beq h).symm, fun h => ?_⟩, beq_self_eq_true _⟩
  subst h
  exact beq_self_eq_true _

/-- C6: the webhook handler fails closed.  With a configured (truthy) secret
and no (truthy) signature header the request is rejected with HTTP 401 before
any agent processing; with a secret and a header that fails verification it is
likewise rejected with 401; only with no secret configured is verification
skipped and the request processed. -/
theorem handle_webhook_fail_closed (secret header : Option String) (raw_body : List Nat)
    (agent : List Nat → String) :
    (pyTruthy secret = true → pyTruthy header = false →
      handle_webhook secret header raw_body agent =
        .httpError 401 "Missing X-Webhook-Signature header") ∧
    (pyTruthy secret = true → pyTruthy header = true →
      verify_signature raw_body (header.getD "") (secret.getD "") = false →
      handle_webhook secret header raw_body agent = .httpError 401 "Invalid signature") ∧
    (pyTruthy secret = false →
      handle_webhook secret header raw_body agent = .response (agent raw_body)) := by
  refine ⟨?_, ?_, ?_⟩ <;> intro hs <;> unfold handle_webhook
  · intro hh; simp [hs, hh]
  · intro hh hv; simp [hs, hh, hv]
  · simp [hs]

/-- Witness for C6: with secret `"k"` configured and no signature header, a
request is rejected with 401. -/
theorem handle_webhook_fail_closed_witness :
    handle_webhook (some "k") none [] (fun _ => "ok") =
      .httpError 401 "Missing X-Webhook-Signature header" :=
  (handle_webhook_fail_closed (some "k") none [] (fun _ => "ok")).1 (by decide) (by decide)

/-- `.data` distributes over string append (by the definition of `append`). -/
theorem string_data_append (s t : String) : (s ++ t).data = s.data ++ t.data := by
  cases s; cases t; rfl

/-- `String.length` is the length of `.data`. -/
theorem string_length_eq_data (s : String) : s.length = s.data.length := by
  cases s; rfl

/-- C9: length enforcement.  Text longer than `max_chars` is replaced by its
first `max_chars` characters followed by the literal `"\n[TRUNCATED]"` — so
the result has length `max_chars + 12` and ends in the marker — and text of
length at most `max_chars` is returned unchanged. -/
theorem enforce_token_limit_truncates (text : String) (max_chars : Nat) :
    (text.length > max_chars →
      Guardrails.enforce_token_limit text max_chars =
        Guardrails.pySlice text max_chars ++ "\n[TRUNCATED]" ∧
      (Guardrails.enforce_token_limit text max_chars).length =
        max_chars + ("\n[TRUNCATED]" : String).length ∧
      ("\n[TRUNCATED]" : String).data <:+ (Guardrails.enforce_token_limit text max_chars).data) ∧
    (text.length ≤ max_chars → Guardrails.enforce_token_limit text max_chars = text) := by
  have htl : text.length = text.data.length := string_length_eq_data text
  constructor
  · intro h
    have he : Guardrails.enforce_token_limit text max_chars =
        Guardrails.pySlice text max_chars ++ "\n[TRUNCATED]" := by
      unfold Guardrails.enforce_token_limit
      rw [if_pos h]
    have hd : (Guardrails.enforce_token_limit text max_chars).data =
        text.data.take max_chars ++ ("\n[TRUNCATED]" : String).data := by
      rw [he, string_data_append]; rfl
    refine ⟨he, ?_, ?_⟩
    · rw [string_length_eq_data, hd, List.length_append, List.length_take]
      have hml : ("\n[TRUNCATED]" : String).data.length = 12 := by decide
      have hl12 : ("\n[TRUNCATED]" : String).length = 12 := by decide
      omega
    · rw [hd]
      exact List.suffix_append _ _
  · intro h
    unfold Guardrails.enforce_token_limit
    rw [if_neg (by omega)]

/-- Witness for C9 at the spec's example input: 20000 `x` characters with
`max_chars = 10000` yield a string of length `10000 + len("\n[TRUNCATED]")`
ending in the marker, and `"Hello"` is returned unchanged. -/
theorem enforce_token_limit_truncates_witness :
    ((Guardrails.enforce_token_limit (String.mk (List.replicate 20000 'x')) 10000).length =
        10000 + ("\n[TRUNCATED]" : String).length ∧
      ("\n[TRUNCATED]" : String).data <:+
        (Guardrails.enforce_token_limit (String.mk (List.replicate 20000 'x')) 10000).data) ∧
    Guardrails.enforce_token_limit "Hello" 10000 = "Hello" := by
  have h : (String.mk (List.replicate 20000 'x')).length > 10000 := by
    rw [string_length_eq_data]
    show (List.replicate 20000 'x').length > 10000
    rw [List.length_replicate]
    omega
  have h2 := enforce_token_limit_truncates (String.mk (List.replicate 20000 'x')) 10000
  have h3 := enforce_token_limit_truncates "Hello" 10000
  exact ⟨⟨(h2.1 h).2.1, (h2.1 h).2.2⟩, h3.2 (by decide)⟩

/-- C10 (implicit): length enforcement is idempotent — truncating an already
truncated text reproduces the same prefix and marker, and short text is a
fixed point. -/
theorem enforce_token_limit_idempotent (text : String) (max_chars : Nat) :
    Guardrails.enforce_token_limit (Guardrails.enforce_token_limit text max_chars) max_chars =
      Guardrails.enforce_token_limit text max_chars := by
  have htl : text.length = text.data.length := string_length_eq_data text
  by_cases h : text.length ≤ max_chars
  · have he : Guardrails.enforce_token_limit text max_chars = text := by
      unfold Guardrails.enforce_token_limit
      rw [if_neg (by omega)]
    rw [he, he]
  · have hgt : text.length > max_chars := by omega
    have he : Guardrails.enforce_token_limit text max_chars =
        Guardrails.pySlice text max_chars ++ "\n[TRUNCATED]" := by
      unfold Guardrails.enforce_token_limit
      rw [if_pos hgt]
    have hd : (Guardrails.enforce_token_limit text max_chars).data =
        text.data.take max_chars ++ ("\n[TRUNCATED]" : String).data := by
      rw [he, string_data_append]; rfl
    have hlen : (Guardrails.enforce_token_limit text max_chars).length = max_chars + 12 := by
      rw [string_length_eq_data, hd, List.length_append, List.length_take]
      have hml : ("\n[TRUNCATED]" : String).data.length = 12 := by decide
      omega
    conv_lhs => rw [Guardrails.enforce_token_limit]
    rw [if_pos (by omega)]
    rw [he]
    have htake : Guardrails.pySlice (Guardrails.pySlice text max_chars ++ "\n[TRUNCATED]")
        max_chars = Guardrails.pySlice text max_chars := by
      unfold Guardrails.pySlice
      congr 1
      rw [string_data_append]
      show List.take max_chars ((text.data.take max_chars) ++ _) = _
      refine List.take_left' ?_
      rw [List.length_take]
      omega
    rw [htake]

/-- C1: whenever `check_input` returns `blocked=True`, the verdict also has
`is_safe=False`, reason `"prompt_injection"` and the original input text
echoed back unmodified as `sanitized_text`; and `blocked=True` can only come
from the injection-detection branch (injection detection enabled and
`detect_injection` fired). -/
theorem check_input_blocked_unmodified (g : Guardrails) (text : String)
    (h : (g.check_input text).blocked = true) :
    (g.check_input text).is_safe = false ∧
    (g.check_input text).reason = some "prompt_injection" ∧
    (g.check_input text).sanitized_text = text ∧
    g.injection_detection = true ∧
    (Guardrails.detect_injection text).detected = true := by
  rcases hd : Guardrails.detect_injection text with ⟨d, p⟩
  unfold Guardrails.check_input at h ⊢
  rw [hd] at h ⊢
  by_cases hinj : g.injection_detection
  · cases d
    · simp only [if_pos hinj] at h ⊢
      exfalso
      by_cases hp : g.pii_filter
      · simp only [if_pos hp] at h
        by_cases hf : (Guardrails.detect_pii text).found
        · simp [hf] at h
        · simp [hf] at h
      · simp [hp] at h
    · simp [hinj, hd]
  · exfalso
    simp only [if_neg hinj] at h
    by_cases hp : g.pii_filter
    · simp only [if_pos hp] at h
      by_cases hf : (Guardrails.detect_pii text).found
      · simp [hf] at h
      · simp [hf] at h
    · simp [hp] at h

/-- Witness for C1: with the default configuration, the input `"jailbreak"`
is blocked, and the theorem yields the blocked-verdict invariant for it. -/
theorem check_input_blocked_unmodified_witness :
    (Guardrails.check_input ⟨true, true⟩ "jailbreak").is_safe = false ∧
    (Guardrails.check_input ⟨true, true⟩ "jailbreak").reason = some "prompt_injection" ∧
    (Guardrails.check_input ⟨true, true⟩ "jailbreak").sanitized_text = "jailbreak" ∧
    (⟨true, true⟩ : Guardrails).injection_detection = true ∧
    (Guardrails.detect_injection "jailbreak").detected = true :=
  check_input_blocked_unmodified ⟨true, true⟩ "jailbreak" (by decide)

/-- C3: `check_output` never blocks.  Its verdict (whose record, like the
source dict, has no `blocked` field at all) always carries a usable
`sanitized_text` — the input redacted when PII filtering is on and PII was
found, the input unchanged otherwise; `is_safe` is exactly "warnings empty";
and the low-confidence warning is present iff `confidence < min_confidence`. -/
theorem check_output_never_blocks (g : Guardrails) (text : String)
    (confidence min_confidence : ℚ) :
    (g.check_output text confidence min_confidence).sanitized_text =
      (if g.pii_filter = true ∧ (Guardrails.detect_pii text).found = true
        then Guardrails.redact_pii text else text) ∧
    (g.check_output text confidence min_confidence).is_safe =
      (g.check_output text confidence min_confidence).warnings.isEmpty ∧
    (Warning.lowConfidence confidence min_confidence ∈
        (g.check_output text confidence min_confidence).warnings ↔
      confidence < min_confidence) := by
  unfold Guardrails.check_output
  by_cases hc : confidence < min_confidence <;>
    by_cases hp : g.pii_filter <;>
      by_cases hf : (Guardrails.detect_pii text).found <;>
        simp [hc, hp, hf, List.mem_map]

/-- C7: `detect_pii` evaluates every catalog category without
short-circuiting: a category name is in `types` iff its pattern matches the
text, `found` holds iff `types` is non-empty, and the empty string yields
`found=false`. -/
theorem detect_pii_complete (text : String) :
    (∀ t : String, t ∈ (Guardrails.detect_pii text).types ↔
      ∃ r : RE, (t, r) ∈ PII_PATTERNS ∧ reSearch r text.data = true) ∧
    ((Guardrails.detect_pii text).found = true ↔ (Guardrails.detect_pii text).types ≠ []) ∧
    (Guardrails.detect_pii "").found = false := by
  refine ⟨?_, ?_, by decide⟩
  · intro t
    unfold Guardrails.detect_pii
    simp only [List.mem_map, List.mem_filter]
    constructor
    · rintro ⟨⟨t', r⟩, ⟨hmem, hsearch⟩, rfl⟩
      exact ⟨r, hmem, hsearch⟩
    · rintro ⟨r, hmem, hsearch⟩
      exact ⟨(t, r), ⟨hmem, hsearch⟩, rfl⟩
  · unfold Guardrails.detect_pii
    simp only [decide_eq_true_eq]
    constructor
    · intro hlen
      exact List.ne_nil_of_length_pos hlen
    · intro hne
      exact List.length_pos.mpr hne

/-- If `re.search` finds no match anywhere in the input (from the scan state
`prev`), then `re.sub` leaves the input unchanged, for any fuel. -/
theorem subAux_eq_of_search_false (r : RE) (tok : List Char) :
    ∀ (l : List Char) (prev : Option Char) (fuel : Nat),
      searchAux r prev l = false → subAux r tok fuel prev l = l := by
  intro l
  induction l with
  | nil =>
    intro prev fuel h
    unfold searchAux at h
    simp only [Bool.or_eq_false_iff] at h
    have hm : matchHere r prev [] = none := by
      cases hm : matchHere r prev [] with
      | none => rfl
      | some v => rw [hm] at h; simp at h
    cases fuel with
    | zero => rfl
    | succ n => unfold subAux; rw [hm]
  | cons c rs ih =>
    intro prev fuel h
    unfold searchAux at h
    simp only [Bool.or_eq_false_iff] at h
    have hm : matchHere r prev (c :: rs) = none := by
      cases hm : matchHere r prev (c :: rs) with
      | none => rfl
      | some v => rw [hm] at h; simp at h
    cases fuel with
    | zero => rfl
    | succ n =>
      unfold subAux
      rw [hm]
      exact congrArg (c :: ·) (ih (some c) n h.2)

/-- If `re.search` finds no match, `re.sub` is the identity. -/
theorem reSub_eq_of_reSearch_false (r : RE) (tok : List Char) (l : List Char)
    (h : reSearch r l = false) : reSub r tok l = l :=
  subAux_eq_of_search_false r tok l none (l.length + 1) h

/-- C8: on text in which no PII pattern matches, `detect_pii` reports
`found=false` and `redact_pii` is the identity. -/
theorem pii_free_text_unchanged (s : String)
    (h : ∀ pr ∈ PII_PATTERNS, reSearch pr.2 s.data = false) :
    (Guardrails.detect_pii s).found = false ∧ Guardrails.redact_pii s = s := by
  constructor
  · unfold Guardrails.detect_pii
    simp only [decide_eq_true_eq]
    have hfil : PII_PATTERNS.filter (fun pr => reSearch pr.2 s.data) = [] := by
      rw [List.filter_eq_nil_iff]
      intro pr hmem
      simp [h pr hmem]
    simp [hfil]
  · unfold Guardrails.redact_pii
    have hfold : ∀ (l : List (String × RE)), (∀ pr ∈ l, reSearch pr.2 s.data = false) →
        l.foldl (fun acc pr => reSub pr.2 (Guardrails.redactToken pr.1).data acc) s.data
          = s.data := by
      intro l
      induction l with
      | nil => intro _; rfl
      | cons pr rest ih =>
        intro hl
        have h1 : reSub pr.2 (Guardrails.redactToken pr.1).data s.data = s.data :=
          reSub_eq_of_reSearch_false pr.2 _ s.data (hl pr (by simp))
        simp only [List.foldl_cons, h1]
        exact ih (fun q hq => hl q (by simp [hq]))
    rw [hfold PII_PATTERNS h]

/-- Witness for C8: `"Hello"` contains no PII match, is reported clean and is
unchanged by redaction. -/
theorem pii_free_text_unchanged_witness :
    (Guardrails.detect_pii "Hello").found = false ∧
    Guardrails.redact_pii "Hello" = "Hello" :=
  pii_free_text_unchanged "Hello" (by decide)

/-- Witness for C3 at a concrete call: with the default configuration and a
clean text, `is_safe` equals "warnings empty". -/
theorem check_output_never_blocks_witness :
    (Guardrails.check_output ⟨true, true⟩ "hi" 1 (1 / 2)).is_safe =
      (Guardrails.check_output ⟨true, true⟩ "hi" 1 (1 / 2)).warnings.isEmpty :=
  (check_output_never_blocks ⟨true, true⟩ "hi" 1 (1 / 2)).2.1

/-- Witness for C5 at a concrete call: the correctly computed signature for
secret `"k"` over the empty body is accepted. -/
theorem verify_signature_iff_expected_witness :
    verify_signature [] ("sha256=" ++ bytesHex (hmacSha256 ("k".data.map Char.toNat) [])) "k"
      = true :=
  (verify_signature_iff_expected [] "" "k").2

/-- Witness for C7 at a concrete call: the empty string yields `found=false`. -/
theorem detect_pii_complete_witness : (Guardrails.detect_pii "").found = false :=
  (detect_pii_complete "").2.2

/-- Witness for C10 at a concrete call: re-truncating `"abcd"` at 2 is a
no-op on the already truncated result. -/
theorem enforce_token_limit_idempotent_witness :
    Guardrails.enforce_token_limit (Guardrails.enforce_token_limit "abcd" 2) 2 =
      Guardrails.enforce_token_limit "abcd" 2 :=
  enforce_token_limit_idempotent "abcd" 2

/-! ### Soundness and completeness of the backtracking matcher -/

/-- `boundary` only inspects the head of the remaining input. -/
theorem boundary_eq_boundaryO (prev : Option Char) (rest : List Char) :
    boundary prev rest = boundaryO prev rest.head? := by
  cases rest <;> rfl

/-- `lastOpt` over a cons pushes the head into the default. -/
theorem lastOpt_cons (c : Char) (cs : List Char) (p : Option Char) :
    lastOpt (c :: cs) p = lastOpt cs (some c) := by
  cases cs with
  | nil => rfl
  | cons d ds =>
    unfold lastOpt
    rw [List.getLast?_cons_cons]
    cases h : (d :: ds).getLast? with
    | none => exact absurd h (by simp)
    | some x => rfl

/-- `lastOpt` over an append composes. -/
theorem lastOpt_append (a b : List Char) (p : Option Char) :
    lastOpt (a ++ b) p = lastOpt b (lastOpt a p) := by
  induction a generalizing p with
  | nil => simp [lastOpt]
  | cons c a' ih => rw [List.cons_append, lastOpt_cons, ih, lastOpt_cons]

/-- The head of an append. -/
theorem head?_append (a b : List Char) : (a ++ b).head? = a.head?.or b.head? := by
  cases a <;> rfl

/-- An alternative with a succeeding left branch succeeds. -/
theorem orElse_ne_none_left {a b : Option (Option Char × List Char)}
    (h : a ≠ none) : (a <|> b) ≠ none := by
  cases a with
  | none => exact absurd rfl h
  | some v => simp

/-- An alternative with a succeeding right branch succeeds. -/
theorem orElse_ne_none_right {a b : Option (Option Char × List Char)}
    (h : b ≠ none) : (a <|> b) ≠ none := by
  cases a with
  | none => simpa using h
  | some v => simp

/-- Completeness of the mandatory repetition step. -/
theorem repEx_complete (p : Char → Bool) :
    ∀ (n : Nat) (cs rem : List Char) (prev : Option Char)
      (k : Option Char → List Char → Option (Option Char × List Char)),
      (∀ c ∈ cs, p c = true) → cs.length = n →
      k (lastOpt cs prev) rem ≠ none →
      repEx p n prev (cs ++ rem) k ≠ none := by
  intro n
  induction n with
  | zero =>
    intro cs rem prev k _ hlen hk
    rw [List.length_eq_zero] at hlen
    subst hlen
    simpa [repEx, lastOpt] using hk
  | succ n ih =>
    intro cs rem prev k hp hlen hk
    cases cs with
    | nil => simp at hlen
    | cons c cs' =>
      simp only [List.length_cons, Nat.succ_inj'] at hlen
      have hpc : p c = true := hp c (by simp)
      simp only [List.cons_append, repEx, hpc, if_true]
      exact ih cs' rem (some c) k (fun d hd => hp d (by simp [hd])) hlen
        (by rwa [← lastOpt_cons])

/-- Completeness of the greedy optional repetition step. -/
theorem repOpt_complete (p : Char → Bool) :
    ∀ (n : Nat) (cs rem : List Char) (prev : Option Char)
      (k : Option Char → List Char → Option (Option Char × List Char)),
      (∀ c ∈ cs, p c = true) → cs.length ≤ n →
      k (lastOpt cs prev) rem ≠ none →
      repOpt p n prev (cs ++ rem) k ≠ none := by
  intro n
  induction n with
  | zero =>
    intro cs rem prev k _ hlen hk
    rw [Nat.le_zero, List.length_eq_zero] at hlen
    subst hlen
    simpa [repOpt, lastOpt] using hk
  | succ n ih =>
    intro cs rem prev k hp hlen hk
    cases cs with
    | nil =>
      simp only [List.nil_append]
      simp only [lastOpt, List.getLast?, Option.or] at hk
      cases rem with
      | nil => simpa [repOpt] using hk
      | cons c rs =>
        simp only [repOpt]
        by_cases hpc : p c = true
        · rw [if_pos hpc]
          exact orElse_ne_none_right hk
        · rw [if_neg hpc]
          exact hk
    | cons c cs' =>
      have hpc : p c = true := hp c (by simp)
      simp only [List.cons_append, repOpt, hpc, if_true]
      refine orElse_ne_none_left ?_
      refine ih cs' rem (some c) k (fun d hd => hp d (by simp [hd]))
        (by simpa using hlen) (by rwa [← lastOpt_cons])

/-- Completeness of the backtracking matcher: if the declarative relation
matches `cs` (with the correct following character) and the continuation
succeeds on the remainder, the matcher does not fail. -/
theorem mtch_complete {r : RE} {prev : Option Char} {cs : List Char} {nxt : Option Char}
    (hm : MatM r prev cs nxt) :
    ∀ (rem : List Char) (k : Option Char → List Char → Option (Option Char × List Char)),
      rem.head? = nxt → k (lastOpt cs prev) rem ≠ none →
      mtch r prev (cs ++ rem) k ≠ none := by
  induction hm with
  | eps p n =>
    intro rem k _ hk
    simpa [mtch, lastOpt] using hk
  | lit p c n =>
    intro rem k _ hk
    simp only [List.cons_append, List.nil_append, mtch, if_pos rfl]
    rwa [lastOpt_cons] at hk
  | cls p q c n hq =>
    intro rem k _ hk
    simp only [List.cons_append, List.nil_append, mtch, hq, if_true]
    rwa [lastOpt_cons] at hk
  | rep p q lo hi cs n hq hlo hhi =>
    intro rem k _ hk
    simp only [mtch]
    have hsplit : cs ++ rem = cs.take lo ++ (cs.drop lo ++ rem) := by
      rw [← List.append_assoc, List.take_append_drop]
    rw [hsplit]
    refine repEx_complete q lo (cs.take lo) (cs.drop lo ++ rem) p _
      (fun d hd => hq d (List.mem_of_mem_take hd))
      (by rw [List.length_take]; omega) ?_
    refine repOpt_complete q _ (cs.drop lo) rem (lastOpt (cs.take lo) p) k
      (fun d hd => hq d (List.mem_of_mem_drop hd)) ?_ ?_
    · rw [List.length_drop]
      cases hi with
      | none =>
        simp only [Option.getD_none]
        rw [List.length_append, List.length_drop]
        omega
      | some h =>
        simp only [Option.getD_some]
        have hch := hhi h rfl
        omega
    · rw [← lastOpt_append, List.take_append_drop]
      exact hk
  | cat p a b cs1 cs2 n _ _ ih1 ih2 =>
    intro rem k hh hk
    simp only [mtch, List.append_assoc]
    refine ih1 (cs2 ++ rem) _ (by rw [head?_append, hh]) ?_
    simp only [ne_eq]
    refine ih2 rem k hh ?_
    rwa [← lastOpt_append]
  | altL p a b cs n _ ih =>
    intro rem k hh hk
    simp only [mtch]
    exact orElse_ne_none_left (ih rem k hh hk)
  | altR p a b cs n _ ih =>
    intro rem k hh hk
    simp only [mtch]
    exact orElse_ne_none_right (ih rem k hh hk)
  | optS p a cs n _ ih =>
    intro rem k hh hk
    simp only [mtch]
    exact orElse_ne_none_left (ih rem k hh hk)
  | optN p a n =>
    intro rem k _ hk
    simp only [mtch, List.nil_append]
    refine orElse_ne_none_right ?_
    simpa [lastOpt] using hk
  | wb p n hb =>
    intro rem k hh hk
    simp only [mtch, List.nil_append, boundary_eq_boundaryO, hh, hb, if_true]
    simpa [lastOpt] using hk

/-- If the declarative relation matches a prefix, `matchHere` succeeds. -/
theorem matchHere_complete {r : RE} {prev : Option Char} {cs : List Char}
    (rem : List Char) (hm : MatM r prev cs rem.head?) :
    matchHere r prev (cs ++ rem) ≠ none :=
  mtch_complete hm rem _ rfl (by simp)

/-- An alternative returning a value does so through one of its branches. -/
theorem orElse_eq_some {a b : Option (Option Char × List Char)}
    {v : Option Char × List Char} (h : (a <|> b) = some v) :
    a = some v ∨ b = some v := by
  cases a with
  | none => right; simpa using h
  | some w => left; simpa using h

/-- Soundness of the mandatory repetition step. -/
theorem repEx_sound (p : Char → Bool) :
    ∀ (n : Nat) (prev : Option Char) (rest : List Char)
      (k : Option Char → List Char → Option (Option Char × List Char))
      (v : Option Char × List Char), repEx p n prev rest k = some v →
      ∃ cs rem, rest = cs ++ rem ∧ cs.length = n ∧ (∀ c ∈ cs, p c = true) ∧
        k (lastOpt cs prev) rem = some v := by
  intro n
  induction n with
  | zero =>
    intro prev rest k v h
    exact ⟨[], rest, rfl, rfl, by simp, by simpa [lastOpt] using h⟩
  | succ n ih =>
    intro prev rest k v h
    cases rest with
    | nil => simp [repEx] at h
    | cons c rs =>
      simp only [repEx] at h
      by_cases hpc : p c = true
      · rw [if_pos hpc] at h
        obtain ⟨cs', rem, hsplit, hlen, hall, hk⟩ := ih (some c) rs k v h
        refine ⟨c :: cs', rem, by simp [hsplit], by simp [hlen], ?_, ?_⟩
        · intro d hd
          rcases List.mem_cons.mp hd with h1 | h2
          · rwa [h1]
          · exact hall d h2
        · rwa [lastOpt_cons]
      · rw [if_neg hpc] at h
        exact absurd h (by simp)

/-- Soundness of the greedy optional repetition step. -/
theorem repOpt_sound (p : Char → Bool) :
    ∀ (n : Nat) (prev : Option Char) (rest : List Char)
      (k : Option Char → List Char → Option (Option Char × List Char))
      (v : Option Char × List Char), repOpt p n prev rest k = some v →
      ∃ cs rem, rest = cs ++ rem ∧ cs.length ≤ n ∧ (∀ c ∈ cs, p c = true) ∧
        k (lastOpt cs prev) rem = some v := by
  intro n
  induction n with
  | zero =>
    intro prev rest k v h
    exact ⟨[], rest, rfl, by simp, by simp, by simpa [lastOpt] using h⟩
  | succ n ih =>
    intro prev rest k v h
    cases rest with
    | nil =>
      exact ⟨[], [], rfl, by simp, by simp, by simpa [lastOpt] using h⟩
    | cons c rs =>
      simp only [repOpt] at h
      by_cases hpc : p c = true
      · rw [if_pos hpc] at h
        rcases orElse_eq_some h with h1 | h2
        · obtain ⟨cs', rem, hsplit, hlen, hall, hk⟩ := ih (some c) rs k v h1
          refine ⟨c :: cs', rem, by simp [hsplit], by simpa using hlen, ?_, ?_⟩
          · intro d hd
            rcases List.mem_cons.mp hd with hx | hx
            · rwa [hx]
            · exact hall d hx
          · rwa [lastOpt_cons]
        · exact ⟨[], c :: rs, rfl, by simp, by simp, by simpa [lastOpt] using h2⟩
      · rw [if_neg hpc] at h
        exact ⟨[], c :: rs, rfl, by simp, by simp, by simpa [lastOpt] using h⟩

/-- Soundness of the backtracking matcher: a successful run decomposes the
input into a declaratively matched prefix and a remainder on which the
continuation succeeded. -/
theorem mtch_sound :
    ∀ (r : RE) (prev : Option Char) (rest : List Char)
      (k : Option Char → List Char → Option (Option Char × List Char))
      (v : Option Char × List Char), wfRE r = true → mtch r prev rest k = some v →
      ∃ cs rem, rest = cs ++ rem ∧ MatM r prev cs rem.head? ∧
        k (lastOpt cs prev) rem = some v := by
  intro r
  induction r with
  | eps =>
    intro prev rest k v _ h
    exact ⟨[], rest, rfl, MatM.eps prev rest.head?, by simpa [lastOpt] using h⟩
  | lit c =>
    intro prev rest k v _ h
    cases rest with
    | nil => simp [mtch] at h
    | cons c' rs =>
      simp only [mtch] at h
      by_cases hc : c' = c
      · rw [if_pos hc] at h
        subst hc
        exact ⟨[c'], rs, rfl, MatM.lit prev c' rs.head?, by rwa [lastOpt_cons]⟩
      · rw [if_neg hc] at h
        exact absurd h (by simp)
  | cls p =>
    intro prev rest k v _ h
    cases rest with
    | nil => simp [mtch] at h
    | cons c' rs =>
      simp only [mtch] at h
      by_cases hc : p c' = true
      · rw [if_pos hc] at h
        exact ⟨[c'], rs, rfl, MatM.cls prev p c' rs.head? hc, by rwa [lastOpt_cons]⟩
      · rw [if_neg hc] at h
        exact absurd h (by simp)
  | rep p lo hi =>
    intro prev rest k v hwf h
    simp only [mtch] at h
    obtain ⟨cs1, rem1, hs1, hlen1, hall1, hk1⟩ := repEx_sound p lo prev rest _ v h
    obtain ⟨cs2, rem, hs2, hlen2, hall2, hk2⟩ :=
      repOpt_sound p _ (lastOpt cs1 prev) rem1 k v hk1
    refine ⟨cs1 ++ cs2, rem, by rw [hs1, hs2, List.append_assoc], ?_, ?_⟩
    · refine MatM.rep prev p lo hi (cs1 ++ cs2) rem.head? ?_ ?_ ?_
      · intro d hd
        rcases List.mem_append.mp hd with hx | hx
        · exact hall1 d hx
        · exact hall2 d hx
      · rw [List.length_append, hlen1]; omega
      · intro hh hhi
        subst hhi
        simp only [wfRE, decide_eq_true_eq] at hwf
        simp only [Option.getD_some] at hlen2
        rw [List.length_append, hlen1]
        omega
    · rwa [lastOpt_append]
  | cat a b iha ihb =>
    intro prev rest k v hwf h
    simp only [wfRE, Bool.and_eq_true] at hwf
    simp only [mtch] at h
    obtain ⟨cs1, rem1, hs1, hm1, hk1⟩ := iha prev rest _ v hwf.1 h
    obtain ⟨cs2, rem, hs2, hm2, hk2⟩ := ihb (lastOpt cs1 prev) rem1 k v hwf.2 hk1
    refine ⟨cs1 ++ cs2, rem, by rw [hs1, hs2, List.append_assoc], ?_, by rwa [lastOpt_append]⟩
    refine MatM.cat prev a b cs1 cs2 rem.head? ?_ hm2
    rwa [hs2, head?_append] at hm1
  | alt a b iha ihb =>
    intro prev rest k v hwf h
    simp only [wfRE, Bool.and_eq_true] at hwf
    simp only [mtch] at h
    rcases orElse_eq_some h with h1 | h2
    · obtain ⟨cs, rem, hs, hm, hk⟩ := iha prev rest k v hwf.1 h1
      exact ⟨cs, rem, hs, MatM.altL prev a b cs rem.head? hm, hk⟩
    · obtain ⟨cs, rem, hs, hm, hk⟩ := ihb prev rest k v hwf.2 h2
      exact ⟨cs, rem, hs, MatM.altR prev a b cs rem.head? hm, hk⟩
  | opt a iha =>
    intro prev rest k v hwf h
    simp only [wfRE] at hwf
    simp only [mtch] at h
    rcases orElse_eq_some h with h1 | h2
    · obtain ⟨cs, rem, hs, hm, hk⟩ := iha prev rest k v hwf h1
      exact ⟨cs, rem, hs, MatM.optS prev a cs rem.head? hm, hk⟩
    · exact ⟨[], rest, rfl, MatM.optN prev a rest.head?, by simpa [lastOpt] using h2⟩
  | wb =>
    intro prev rest k v _ h
    simp only [mtch] at h
    by_cases hb : boundary prev rest = true
    · rw [if_pos hb] at h
      rw [boundary_eq_boundaryO] at hb
      exact ⟨[], rest, rfl, MatM.wb prev rest.head? hb, by simpa [lastOpt] using h⟩
    · rw [if_neg hb] at h
      exact absurd h (by simp)

/-- Soundness of `matchHere`: a found match decomposes the input. -/
theorem matchHere_sound {r : RE} {prev p' : Option Char} {rest rem : List Char}
    (hwf : wfRE r = true) (h : matchHere r prev rest = some (p', rem)) :
    ∃ cs, rest = cs ++ rem ∧ MatM r prev cs rem.head? ∧ p' = lastOpt cs prev := by
  obtain ⟨cs, rem0, hs, hm, hk⟩ := mtch_sound r prev rest _ (p', rem) hwf h
  simp only [Option.some_inj, Prod.mk.injEq] at hk
  exact ⟨cs, by rw [hs, hk.2], by rw [hk.2] at hm; exact hm, hk.1.symm⟩

/-- `re.search` succeeds exactly when some split of the input carries a
declarative match with the correct neighbouring characters. -/
theorem searchAux_iff_exists (r : RE) (hwf : wfRE r = true) :
    ∀ (l : List Char) (prev : Option Char),
      searchAux r prev l = true ↔
        ∃ u cs v, l = u ++ (cs ++ v) ∧ MatM r (lastOpt u prev) cs v.head? := by
  intro l
  induction l with
  | nil =>
    intro prev
    constructor
    · intro h
      simp only [searchAux, Bool.or_eq_true, Option.isSome_iff_exists] at h
      rcases h with ⟨⟨p', rem⟩, hm⟩ | hfalse
      · obtain ⟨cs, hs, hm', _⟩ := matchHere_sound hwf hm
        rcases List.append_eq_nil.mp hs.symm with ⟨hcs, hrem⟩
        exact ⟨[], [], [], rfl, by subst hcs hrem; simpa [lastOpt] using hm'⟩
      · simp at hfalse
    · rintro ⟨u, cs, v, hs, hm⟩
      rcases List.append_eq_nil.mp hs.symm with ⟨hu, hrest⟩
      rcases List.append_eq_nil.mp hrest with ⟨hcs, hv⟩
      subst hu hcs hv
      have := matchHere_complete [] (by simpa [lastOpt] using hm)
      simp only [searchAux, List.append_nil, Bool.or_eq_true]
      left
      simpa [Option.isSome_iff_ne_none] using this
  | cons c rs ih =>
    intro prev
    constructor
    · intro h
      simp only [searchAux, Bool.or_eq_true, Option.isSome_iff_exists] at h
      rcases h with ⟨⟨p', rem⟩, hm⟩ | hrec
      · obtain ⟨cs, hs, hm', _⟩ := matchHere_sound hwf hm
        exact ⟨[], cs, rem, by simpa [lastOpt] using hs, by simpa [lastOpt] using hm'⟩
      · obtain ⟨u, cs, v, hs, hm⟩ := (ih (some c)).mp hrec
        exact ⟨c :: u, cs, v, by simp [hs], by rwa [lastOpt_cons]⟩
    · rintro ⟨u, cs, v, hs, hm⟩
      cases u with
      | nil =>
        simp only [List.nil_append] at hs hm
        have hc := matchHere_complete v (show MatM r prev cs v.head? by
          simpa [lastOpt] using hm)
        rw [← hs] at hc
        simp only [searchAux, Bool.or_eq_true]
        left
        simpa [Option.isSome_iff_ne_none] using hc
      | cons c0 u' =>
        simp only [List.cons_append, List.cons.injEq] at hs
        simp only [searchAux, Bool.or_eq_true]
        right
        rw [← hs.1] at hm
        exact (ih (some c)).mpr ⟨u', cs, v, hs.2, by rwa [lastOpt_cons] at hm⟩

/-- `reSearch` as an existential over declarative matches. -/
theorem reSearch_iff_exists (r : RE) (hwf : wfRE r = true) (l : List Char) :
    reSearch r l = true ↔
      ∃ u cs v, l = u ++ (cs ++ v) ∧ MatM r u.getLast? cs v.head? := by
  unfold reSearch
  rw [searchAux_iff_exists r hwf l none]
  constructor
  · rintro ⟨u, cs, v, hs, hm⟩
    exact ⟨u, cs, v, hs, by simpa [lastOpt] using hm⟩
  · rintro ⟨u, cs, v, hs, hm⟩
    exact ⟨u, cs, v, hs, by simpa [lastOpt] using hm⟩

/-! ### Semantic lemmas for the syntactic pattern predicates -/

/-- Non-nullable patterns never match the empty string. -/
theorem MatM_ne_nil {r : RE} {p : Option Char} {cs : List Char} {n : Option Char}
    (hm : MatM r p cs n) (hnul : nullableRE r = false) : cs ≠ [] := by
  induction hm with
  | eps _ _ => simp [nullableRE] at hnul
  | lit _ _ _ => simp
  | cls _ _ _ _ _ => simp
  | rep _ _ lo _ cs _ _ hlo _ =>
    simp only [nullableRE, decide_eq_false_iff_not] at hnul
    intro hnil
    subst hnil
    simp at hlo
    omega
  | cat _ a b cs1 cs2 _ _ _ ih1 ih2 =>
    simp only [nullableRE, Bool.and_eq_false_iff] at hnul
    intro hnil
    rcases List.append_eq_nil.mp hnil with ⟨h1, h2⟩
    rcases hnul with hna | hnb
    · exact ih1 hna h1
    · exact ih2 hnb h2
  | altL _ _ _ _ _ _ ih =>
    simp only [nullableRE, Bool.or_eq_false_iff] at hnul
    exact ih hnul.1
  | altR _ _ _ _ _ _ ih =>
    simp only [nullableRE, Bool.or_eq_false_iff] at hnul
    exact ih hnul.2
  | optS _ _ _ _ _ _ => simp [nullableRE] at hnul
  | optN _ _ _ => simp [nullableRE] at hnul
  | wb _ _ _ => simp [nullableRE] at hnul

/-- Matched characters all lie in the pattern's character set. -/
theorem MatM_chars {r : RE} {p : Option Char} {cs : List Char} {n : Option Char}
    (hm : MatM r p cs n) : ∀ c ∈ cs, charsOf r c = true := by
  induction hm with
  | eps _ _ => simp
  | lit _ c _ => intro d hd; simp only [List.mem_singleton] at hd; simp [charsOf, hd]
  | cls _ q c _ hq => intro d hd; simp only [List.mem_singleton] at hd; subst hd; simpa [charsOf]
  | rep _ q _ _ cs _ hq _ _ => intro d hd; simpa [charsOf] using hq d hd
  | cat _ a b cs1 cs2 _ _ _ ih1 ih2 =>
    intro d hd
    rcases List.mem_append.mp hd with hx | hx
    · simp [charsOf, ih1 d hx]
    · simp [charsOf, ih2 d hx]
  | altL _ _ _ _ _ _ ih => intro d hd; simp [charsOf, ih d hd]
  | altR _ _ _ _ _ _ ih => intro d hd; simp [charsOf, ih d hd]
  | optS _ _ _ _ _ ih => intro d hd; simpa [charsOf] using ih d hd
  | optN _ _ _ => simp
  | wb _ _ _ => simp

/-- Only-empty patterns only match the empty string. -/
theorem MatM_onlyEmpty {r : RE} {p : Option Char} {cs : List Char} {n : Option Char}
    (hm : MatM r p cs n) (hoe : onlyEmptyRE r = true) : cs = [] := by
  induction hm with
  | eps _ _ => rfl
  | lit _ _ _ => simp [onlyEmptyRE] at hoe
  | cls _ _ _ _ _ => simp [onlyEmptyRE] at hoe
  | rep _ _ _ hi cs _ _ _ hhi =>
    simp only [onlyEmptyRE, decide_eq_true_eq] at hoe
    rw [List.length_eq_zero.mp (Nat.le_zero.mp (hhi 0 hoe))]
  | cat _ _ _ _ _ _ _ _ ih1 ih2 =>
    simp only [onlyEmptyRE, Bool.and_eq_true] at hoe
    rw [ih1 hoe.1, ih2 hoe.2, List.append_nil]
  | altL _ _ _ _ _ _ ih =>
    simp only [onlyEmptyRE, Bool.and_eq_true] at hoe
    exact ih hoe.1
  | altR _ _ _ _ _ _ ih =>
    simp only [onlyEmptyRE, Bool.and_eq_true] at hoe
    exact ih hoe.2
  | optS _ _ _ _ _ ih => exact ih hoe
  | optN _ _ _ => rfl
  | wb _ _ _ => rfl

/-- Matches of a `FirstCharP` pattern are non-empty and start with a `P`
character. -/
theorem MatM_firstChar {P : Char → Bool} {r : RE} {p : Option Char} {cs : List Char}
    {n : Option Char} (hm : MatM r p cs n) (hf : FirstCharP P r) :
    ∃ c cs', cs = c :: cs' ∧ P c = true := by
  induction hm with
  | eps _ _ => exact absurd hf id
  | lit _ c _ => exact ⟨c, [], rfl, hf⟩
  | cls _ q c _ hq => exact ⟨c, [], rfl, hf c hq⟩
  | rep _ q lo _ cs _ hq hlo _ =>
    cases cs with
    | nil =>
      obtain ⟨hpos, _⟩ := hf
      simp only [List.length_nil] at hlo
      omega
    | cons c cs' => exact ⟨c, cs', rfl, hf.2 c (hq c (by simp))⟩
  | cat _ a b cs1 cs2 _ hm1 _ ih1 ih2 =>
    rcases hf with hfa | ⟨hoe, hfb⟩
    · obtain ⟨c, cs', hc, hP⟩ := ih1 hfa
      exact ⟨c, cs' ++ cs2, by simp [hc], hP⟩
    · have h1 : cs1 = [] := MatM_onlyEmpty hm1 hoe
      obtain ⟨c, cs', hc, hP⟩ := ih2 hfb
      exact ⟨c, cs', by simp [h1, hc], hP⟩
  | altL _ _ _ _ _ _ ih => exact ih hf.1
  | altR _ _ _ _ _ _ ih => exact ih hf.2
  | optS _ _ _ _ _ _ => exact absurd hf id
  | optN _ _ _ => exact absurd hf id
  | wb _ _ _ => exact absurd hf id

/-- Matches of a `LastCharP` pattern are non-empty and end with a `P`
character. -/
theorem MatM_lastChar {P : Char → Bool} {r : RE} {p : Option Char} {cs : List Char}
    {n : Option Char} (hm : MatM r p cs n) (hf : LastCharP P r) :
    ∃ c cs', cs = cs' ++ [c] ∧ P c = true := by
  induction hm with
  | eps _ _ => exact absurd hf id
  | lit _ c _ => exact ⟨c, [], rfl, hf⟩
  | cls _ q c _ hq => exact ⟨c, [], rfl, hf c hq⟩
  | rep _ q lo _ cs _ hq hlo _ =>
    rcases List.eq_nil_or_concat cs with hnil | ⟨cs', c, hc⟩
    · obtain ⟨hpos, _⟩ := hf
      subst hnil
      simp only [List.length_nil] at hlo
      omega
    · rw [List.concat_eq_append] at hc
      exact ⟨c, cs', hc, hf.2 c (hq c (by simp [hc]))⟩
  | cat _ a b cs1 cs2 _ _ hm2 ih1 ih2 =>
    rcases hf with hfb | ⟨hoe, hfa⟩
    · obtain ⟨c, cs', hc, hP⟩ := ih2 hfb
      exact ⟨c, cs1 ++ cs', by simp [hc], hP⟩
    · have h2 : cs2 = [] := MatM_onlyEmpty hm2 hoe
      obtain ⟨c, cs', hc, hP⟩ := ih1 hfa
      exact ⟨c, cs', by simp [h2, hc], hP⟩
  | altL _ _ _ _ _ _ ih => exact ih hf.1
  | altR _ _ _ _ _ _ ih => exact ih hf.2
  | optS _ _ _ _ _ _ => exact absurd hf id
  | optN _ _ _ => exact absurd hf id
  | wb _ _ _ => exact absurd hf id

/-- Matches of a `MandatoryP` pattern contain a `P` character. -/
theorem MatM_mandatory {P : Char → Bool} {r : RE} {p : Option Char} {cs : List Char}
    {n : Option Char} (hm : MatM r p cs n) (hf : MandatoryP P r) :
    ∃ c ∈ cs, P c = true := by
  induction hm with
  | eps _ _ => exact absurd hf id
  | lit _ c _ => exact ⟨c, by simp, hf⟩
  | cls _ q c _ hq => exact ⟨c, by simp, hf c hq⟩
  | rep _ q lo _ cs _ hq hlo _ =>
    cases cs with
    | nil =>
      obtain ⟨hpos, _⟩ := hf
      simp only [List.length_nil] at hlo
      omega
    | cons c cs' => exact ⟨c, by simp, hf.2 c (hq c (by simp))⟩
  | cat _ a b cs1 cs2 _ _ _ ih1 ih2 =>
    rcases hf with hfa | hfb
    · obtain ⟨c, hc, hP⟩ := ih1 hfa
      exact ⟨c, by simp [hc], hP⟩
    · obtain ⟨c, hc, hP⟩ := ih2 hfb
      exact ⟨c, by simp [hc], hP⟩
  | altL _ _ _ _ _ _ ih => exact ih hf.1
  | altR _ _ _ _ _ _ ih => exact ih hf.2
  | optS _ _ _ _ _ _ => exact absurd hf id
  | optN _ _ _ => exact absurd hf id
  | wb _ _ _ => exact absurd hf id

/-- Matches of a `StartsWB` pattern assert a word boundary at their start. -/
theorem MatM_startsWB {r : RE} {p : Option Char} {cs : List Char} {n : Option Char}
    (hm : MatM r p cs n) (hf : StartsWB r) :
    boundaryO p (cs.head?.or n) = true := by
  induction hm with
  | eps _ _ => exact absurd hf id
  | lit _ _ _ => exact absurd hf id
  | cls _ _ _ _ _ => exact absurd hf id
  | rep _ _ _ _ _ _ _ _ _ => exact absurd hf id
  | cat _ a b cs1 cs2 _ hm1 _ ih1 ih2 =>
    rcases hf with hfa | ⟨hoe, hfb⟩
    · have hx := ih1 hfa
      rw [head?_append, Option.or_assoc]
      exact hx
    · have h1 : cs1 = [] := MatM_onlyEmpty hm1 hoe
      subst h1
      have hx := ih2 hfb
      simp only [List.nil_append]
      simpa [lastOpt] using hx
  | altL _ _ _ _ _ _ ih => exact ih hf.1
  | altR _ _ _ _ _ _ ih => exact ih hf.2
  | optS _ _ _ _ _ _ => exact absurd hf id
  | optN _ _ _ => exact absurd hf id
  | wb _ _ hb => simpa using hb

/-- Matches of an `EndsWB` pattern assert a word boundary at their end. -/
theorem MatM_endsWB {r : RE} {p : Option Char} {cs : List Char} {n : Option Char}
    (hm : MatM r p cs n) (hf : EndsWB r) :
    boundaryO (lastOpt cs p) n = true := by
  induction hm with
  | eps _ _ => exact absurd hf id
  | lit _ _ _ => exact absurd hf id
  | cls _ _ _ _ _ => exact absurd hf id
  | rep _ _ _ _ _ _ _ _ _ => exact absurd hf id
  | cat _ a b cs1 cs2 _ hm1 hm2 ih1 ih2 =>
    rcases hf with hfb | ⟨hoe, hfa⟩
    · have := ih2 hfb
      rwa [lastOpt_append]
    · have h2 : cs2 = [] := MatM_onlyEmpty hm2 hoe
      subst h2
      have := ih1 hfa
      rw [List.append_nil]
      simpa [lastOpt] using this
  | altL _ _ _ _ _ _ ih => exact ih hf.1
  | altR _ _ _ _ _ _ ih => exact ih hf.2
  | optS _ _ _ _ _ _ => exact absurd hf id
  | optN _ _ _ => exact absurd hf id
  | wb _ _ hb => simpa [lastOpt] using hb

/-- Matches of boundary-free patterns do not depend on the context
characters. -/
theorem MatM_wbFree_ctx {r : RE} {p : Option Char} {cs : List Char} {n : Option Char}
    (hm : MatM r p cs n) (hf : wbFreeRE r = true) :
    ∀ (p' n' : Option Char), MatM r p' cs n' := by
  induction hm with
  | eps _ _ => intro p' n'; exact MatM.eps p' n'
  | lit _ c _ => intro p' n'; exact MatM.lit p' c n'
  | cls _ q c _ hq => intro p' n'; exact MatM.cls p' q c n' hq
  | rep _ q lo hi cs _ hq hlo hhi => intro p' n'; exact MatM.rep p' q lo hi cs n' hq hlo hhi
  | cat _ a b cs1 cs2 _ _ _ ih1 ih2 =>
    intro p' n'
    simp only [wbFreeRE, Bool.and_eq_true] at hf
    exact MatM.cat p' a b cs1 cs2 n' (ih1 hf.1 p' _) (ih2 hf.2 _ n')
  | altL _ a b cs _ _ ih =>
    intro p' n'
    simp only [wbFreeRE, Bool.and_eq_true] at hf
    exact MatM.altL p' a b cs n' (ih hf.1 p' n')
  | altR _ a b cs _ _ ih =>
    intro p' n'
    simp only [wbFreeRE, Bool.and_eq_true] at hf
    exact MatM.altR p' a b cs n' (ih hf.2 p' n')
  | optS _ a cs _ _ ih =>
    intro p' n'
    simp only [wbFreeRE] at hf
    exact MatM.optS p' a cs n' (ih hf p' n')
  | optN _ a _ => intro p' n'; exact MatM.optN p' a n'
  | wb _ _ _ => simp [wbFreeRE] at hf

/-- The executable `re.sub` scan satisfies the decomposition relation (for
well-formed, non-nullable patterns, with sufficient fuel). -/
theorem subAux_SubD (r : RE) (tok : List Char) (hwf : wfRE r = true)
    (hnul : nullableRE r = false) :
    ∀ (fuel : Nat) (prev : Option Char) (rest : List Char), rest.length < fuel →
      SubD r tok prev rest (subAux r tok fuel prev rest) := by
  intro fuel
  induction fuel with
  | zero => intro prev rest h; omega
  | succ n ih =>
    intro prev rest hlen
    cases hm : matchHere r prev rest with
    | none =>
      cases rest with
      | nil => simpa [subAux, hm] using SubD.nil prev
      | cons c rs =>
        simp only [subAux, hm]
        exact SubD.copy prev c rs _ hm (ih (some c) rs (by simp at hlen ⊢; omega))
    | some v =>
      obtain ⟨p', rem⟩ := v
      obtain ⟨mcs, hsplit, hmat, hp'⟩ := matchHere_sound hwf hm
      have hne : mcs ≠ [] := MatM_ne_nil hmat hnul
      have hlt : rem.length < rest.length := by
        rw [hsplit, List.length_append]
        cases mcs with
        | nil => exact absurd rfl hne
        | cons _ _ => simp
      simp only [subAux, hm, if_neg (by omega : ¬rem.length = rest.length)]
      rw [hsplit]
      refine SubD.repl prev mcs rem _ hne hmat ?_
      rw [← hp']
      exact ih p' rem (by omega)

/-- `reSub` satisfies the decomposition relation. -/
theorem reSub_SubD (r : RE) (tok : List Char) (hwf : wfRE r = true)
    (hnul : nullableRE r = false) (s : List Char) :
    SubD r tok none s (reSub r tok s) :=
  subAux_SubD r tok hwf hnul (s.length + 1) none s (by omega)

/-- `getLast?` ignores a cons onto a non-empty list. -/
theorem getLast?_cons_of_ne (c : Char) {l : List Char} (h : l ≠ []) :
    (c :: l).getLast? = l.getLast? := by
  cases l with
  | nil => exact absurd rfl h
  | cons d ds => exact List.getLast?_cons_cons

/-- Following a match through a `re.sub` decomposition: a bracket-free
non-empty prefix `cs` of the output is also a prefix of the input, and the
character following it either agrees between input and output, or in the
output it is the `[` opening a replacement whose chunk immediately follows
`cs` in the input. -/
theorem subD_follow {r : RE} {tok : List Char} (htokHead : tok.head? = some '[') :
    ∀ {prev : Option Char} {x y : List Char}, SubD r tok prev x y →
    ∀ cs v, y = cs ++ v → cs ≠ [] → (∀ c ∈ cs, c ≠ '[' ∧ c ≠ ']') →
    ∃ v', x = cs ++ v' ∧
      (v.head? = v'.head? ∨
        (v.head? = some '[' ∧ ∃ mcs rem2, v' = mcs ++ rem2 ∧ mcs ≠ [] ∧
          MatM r cs.getLast? mcs rem2.head?)) := by
  intro prev x y hsub
  induction hsub with
  | nil p =>
    intro cs v hy hne _
    rcases List.append_eq_nil.mp hy.symm with ⟨h1, _⟩
    exact absurd h1 hne
  | copy p c rest out hmh hsubr ih =>
    intro cs v hy hne hbr
    cases cs with
    | nil => exact absurd rfl hne
    | cons c0 cs' =>
      rw [List.cons_append] at hy
      injection hy with hc0 hout
      subst hc0
      cases hcs' : cs' with
      | nil =>
        subst hcs'
        simp only [List.nil_append] at hout
        refine ⟨rest, by simp, ?_⟩
        subst hout
        cases hsubr with
        | nil => left; rfl
        | copy p2 c2 rest2 out2 hmh2 hsubr2 => left; rfl
        | repl p2 mcs rem out2 hne2 hmat2 hsubr2 =>
          right
          have htk : (tok ++ out2).head? = some '[' := by
            cases tok with
            | nil => simp at htokHead
            | cons t ts => simpa using htokHead
          exact ⟨htk, mcs, rem, rfl, hne2, by simpa using hmat2⟩
      | cons d ds =>
        rw [← hcs']
        have hcs'ne : cs' ≠ [] := by rw [hcs']; simp
        obtain ⟨v', hx, hrel⟩ := ih cs' v hout hcs'ne
          (fun e he => hbr e (by simp [he]))
        refine ⟨v', by rw [hx, List.cons_append], ?_⟩
        rwa [getLast?_cons_of_ne c hcs'ne]
  | repl p mcs rem out hne2 hmat2 hsubr ih =>
    intro cs v hy hne hbr
    cases cs with
    | nil => exact absurd rfl hne
    | cons c0 cs' =>
      exfalso
      cases tok with
      | nil => simp at htokHead
      | cons t ts =>
        rw [List.cons_append] at hy
        injection hy with hc0 _
        simp only [List.head?_cons, Option.some_inj] at htokHead
        exact (hbr c0 (by simp)).1 (by rw [← hc0, htokHead])

/-- Mapping a match in a `re.sub` output back to the input.  For a
decomposition `SubD r tok prev x y` and a split `y = u ++ cs ++ v` where the
segment `cs` is bracket-free and contains a character that the replacement
token lacks, the same segment occurs in the input `x`, at a position where
the scan's `matchHere` failed; the characters bordering the segment either
agree between input and output, or the border is a replacement token edge, in
which case a non-empty chunk match of `r` is adjacent to the segment in the
input. -/
theorem subD_span {r : RE} {tok : List Char} {P : Char → Bool}
    (htokP : ∀ c ∈ tok, P c = false)
    (htokHead : tok.head? = some '[') (htokLast : tok.getLast? = some ']') :
    ∀ {prev : Option Char} {x y : List Char}, SubD r tok prev x y →
    ∀ u cs v, y = u ++ (cs ++ v) →
      (∀ c ∈ cs, c ≠ '[' ∧ c ≠ ']') → (∃ c ∈ cs, P c = true) →
      ∃ u' v', x = u' ++ (cs ++ v') ∧
        matchHere r (lastOpt u' prev) (cs ++ v') = none ∧
        ((u = [] ∧ u' = []) ∨
         (u ≠ [] ∧ u' ≠ [] ∧ u.getLast? = u'.getLast?) ∨
         (u.getLast? = some ']' ∧ ∃ p0 mcs, mcs ≠ [] ∧ MatM r p0 mcs cs.head?)) ∧
        (v.head? = v'.head? ∨
          (v.head? = some '[' ∧ ∃ mcs rem2, v' = mcs ++ rem2 ∧ mcs ≠ [] ∧
            MatM r cs.getLast? mcs rem2.head?)) := by
  intro prev x y hsub
  induction hsub with
  | nil p =>
    intro u cs v hy _ hP
    rcases List.append_eq_nil.mp hy.symm with ⟨_, hrest⟩
    rcases List.append_eq_nil.mp hrest with ⟨hcs, _⟩
    obtain ⟨c, hc, _⟩ := hP
    rw [hcs] at hc
    exact absurd hc (by simp)
  | copy p c rest out hmh hsubr ih =>
    intro u cs v hy hbr hP
    have hcsne : cs ≠ [] := by
      obtain ⟨d, hd, _⟩ := hP
      intro hnil
      rw [hnil] at hd
      exact absurd hd (by simp)
    cases u with
    | nil =>
      simp only [List.nil_append] at hy
      have hcur : SubD r tok p (c :: rest) (c :: out) := SubD.copy p c rest out hmh hsubr
      obtain ⟨v', hx, hnext⟩ := subD_follow htokHead hcur cs v hy hcsne hbr
      refine ⟨[], v', by simpa using hx, ?_, Or.inl ⟨rfl, rfl⟩, hnext⟩
      rw [← hx]
      simpa [lastOpt] using hmh
    | cons c0 u₂ =>
      rw [List.cons_append] at hy
      injection hy with hc0 hout
      subst hc0
      obtain ⟨u₂', v', hrem, hscan, hprev, hnext⟩ := ih u₂ cs v hout hbr hP
      refine ⟨c :: u₂', v', by rw [hrem, List.cons_append], ?_, ?_, hnext⟩
      · rwa [lastOpt_cons]
      · rcases hprev with ⟨h1, h2⟩ | ⟨h1, h2, h3⟩ | ⟨h1, h2⟩
        · subst h1 h2
          exact Or.inr (Or.inl ⟨by simp, by simp, rfl⟩)
        · refine Or.inr (Or.inl ⟨by simp, by simp, ?_⟩)
          rw [getLast?_cons_of_ne c h1, getLast?_cons_of_ne c h2, h3]
        · refine Or.inr (Or.inr ⟨?_, h2⟩)
          have hu₂ne : u₂ ≠ [] := by
            intro hnil
            rw [hnil] at h1
            simp at h1
          rwa [getLast?_cons_of_ne c hu₂ne]
  | repl p mcs rem out hne2 hmat2 hsubr ih =>
    intro u cs v hy hbr hP
    have hcsne : cs ≠ [] := by
      obtain ⟨d, hd, _⟩ := hP
      intro hnil
      rw [hnil] at hd
      exact absurd hd (by simp)
    have htokne : tok ≠ [] := by
      intro hnil
      rw [hnil] at htokHead
      simp at htokHead
    rcases List.append_eq_append_iff.mp hy with ⟨w, hu, hout⟩ | ⟨w, htw, hcv⟩
    · -- u = tok ++ w : the match lies beyond this replacement
      obtain ⟨w', v', hrem, hscan, hprev, hnext⟩ := ih w cs v hout hbr hP
      refine ⟨mcs ++ w', v', by rw [hrem, List.append_assoc], ?_, ?_, hnext⟩
      · rwa [lastOpt_append]
      · subst hu
        rcases hprev with ⟨h1, h2⟩ | ⟨h1, h2, h3⟩ | ⟨h1, h2⟩
        · subst h1 h2
          refine Or.inr (Or.inr ⟨by simpa using htokLast, p, mcs, hne2, ?_⟩)
          have : rem.head? = cs.head? := by
            rw [hrem]
            simp only [List.nil_append, head?_append]
            cases hcs : cs with
            | nil => exact absurd hcs hcsne
            | cons d ds => rfl
          rwa [this] at hmat2
        · refine Or.inr (Or.inl ⟨by simp [htokne], by simp [hne2], ?_⟩)
          rw [List.getLast?_append_of_ne_nil tok h1, List.getLast?_append_of_ne_nil mcs h2, h3]
        · refine Or.inr (Or.inr ⟨?_, h2⟩)
          have hwne : w ≠ [] := by
            intro hnil
            rw [hnil] at h1
            simp at h1
          rwa [List.getLast?_append_of_ne_nil tok hwne]
    · -- tok = u ++ w : the match would start inside the token
      cases hw : w with
      | nil =>
        subst hw
        rw [List.append_nil] at htw
        simp only [List.nil_append] at hcv
        obtain ⟨u₂', v', hrem, hscan, hprev, hnext⟩ :=
          ih [] cs v (by simpa using hcv.symm) hbr hP
        have hu₂' : u₂' = [] := by
          rcases hprev with ⟨_, h2⟩ | ⟨h1, _, _⟩ | ⟨h1, _⟩
          · exact h2
          · exact absurd rfl h1
          · simp at h1
        subst hu₂'
        simp only [List.nil_append] at hrem hscan
        refine ⟨mcs, v', by rw [hrem], ?_, ?_, hnext⟩
        · simpa [lastOpt] using hscan
        · refine Or.inr (Or.inr ⟨by rw [← htw]; simpa using htokLast, p, mcs, hne2, ?_⟩)
          have : rem.head? = cs.head? := by
            rw [hrem, head?_append]
            cases hcs : cs with
            | nil => exact absurd hcs hcsne
            | cons d ds => rfl
          rwa [this] at hmat2
      | cons w0 w'' =>
        exfalso
        have hwne : w ≠ [] := by rw [hw]; simp
        rcases List.append_eq_append_iff.mp hcv with ⟨a, hwa, _⟩ | ⟨a, hcsa, _⟩
        · -- w = cs ++ a : cs inside the token
          obtain ⟨d, hd, hPd⟩ := hP
          have hdw : d ∈ w := by rw [hwa]; exact List.mem_append_left a hd
          have hdtok : d ∈ tok := by rw [htw]; exact List.mem_append_right u hdw
          rw [htokP d hdtok] at hPd
          exact absurd hPd (by simp)
        · -- cs = w ++ a : cs crosses the token's closing bracket
          have hwlast : w.getLast? = some ']' := by
            rw [htw, List.getLast?_append_of_ne_nil u hwne] at htokLast
            exact htokLast
          have hmem : ']' ∈ w := List.mem_of_getLast?_eq_some hwlast
          have hmemcs : ']' ∈ cs := by rw [hcsa]; exact List.mem_append_left a hmem
          exact (hbr ']' hmemcs).2 rfl

/-- `lastOpt` with no default is `getLast?`. -/
theorem lastOpt_none (l : List Char) : lastOpt l none = l.getLast? := by
  unfold lastOpt
  cases l.getLast? <;> rfl

/-- Matched characters of a pattern whose character set excludes the square
brackets is bracket-free. -/
theorem MatM_bracketFree {r : RE} {p : Option Char} {cs : List Char} {n : Option Char}
    (hm : MatM r p cs n) (hbrL : charsOf r '[' = false) (hbrR : charsOf r ']' = false) :
    ∀ c ∈ cs, c ≠ '[' ∧ c ≠ ']' := by
  intro c hc
  have hch := MatM_chars hm c hc
  constructor
  · intro he
    rw [he, hbrL] at hch
    exact absurd hch (by simp)
  · intro he
    rw [he, hbrR] at hch
    exact absurd hch (by simp)

/-- Two adjacent word characters never form a word boundary. -/
theorem boundaryO_word_word {a b : Char} (ha : wordChar a = true) (hb : wordChar b = true) :
    boundaryO (some a) (some b) = false := by
  simp [boundaryO, ha, hb]

/-- Self-clearing of `re.sub` for boundary-free patterns: after substituting
every match of `r` by a token that starts with `[`, ends with `]` and lacks a
character mandatory for `r`, no match of `r` remains. -/
theorem reSub_self_clear_wbFree (r : RE) (tok : List Char) (P : Char → Bool)
    (hwf : wfRE r = true) (hnul : nullableRE r = false)
    (hbrL : charsOf r '[' = false) (hbrR : charsOf r ']' = false)
    (hman : MandatoryP P r) (htokP : ∀ c ∈ tok, P c = false)
    (hth : tok.head? = some '[') (htl : tok.getLast? = some ']')
    (hwb : wbFreeRE r = true) (x : List Char) :
    reSearch r (reSub r tok x) = false := by
  by_contra hcon
  rw [Bool.not_eq_false] at hcon
  obtain ⟨u, cs, v, hy, hm⟩ := (reSearch_iff_exists r hwf _).mp hcon
  have hbr := MatM_bracketFree hm hbrL hbrR
  have hP := MatM_mandatory hm hman
  obtain ⟨u', v', hx, hscan, _, _⟩ :=
    subD_span htokP hth htl (reSub_SubD r tok hwf hnul x) u cs v hy hbr hP
  exact matchHere_complete v' (MatM_wbFree_ctx hm hwb (lastOpt u' none) v'.head?) hscan

/-- Preservation for boundary-free patterns: substituting another pattern's
matches cannot create a match of a boundary-free pattern `r` that was absent
from the input. -/
theorem reSub_preserve_wbFree (r rs : RE) (tok : List Char) (P : Char → Bool)
    (hwf : wfRE r = true)
    (hwfs : wfRE rs = true) (hnuls : nullableRE rs = false)
    (hbrL : charsOf r '[' = false) (hbrR : charsOf r ']' = false)
    (hman : MandatoryP P r) (htokP : ∀ c ∈ tok, P c = false)
    (hth : tok.head? = some '[') (htl : tok.getLast? = some ']')
    (hwb : wbFreeRE r = true) (x : List Char)
    (hx : reSearch r x = false) :
    reSearch r (reSub rs tok x) = false := by
  by_contra hcon
  rw [Bool.not_eq_false] at hcon
  obtain ⟨u, cs, v, hy, hm⟩ := (reSearch_iff_exists r hwf _).mp hcon
  have hbr := MatM_bracketFree hm hbrL hbrR
  have hP := MatM_mandatory hm hman
  obtain ⟨u', v', hxdec, _, _, _⟩ :=
    subD_span htokP hth htl (reSub_SubD rs tok hwfs hnuls x) u cs v hy hbr hP
  have : reSearch r x = true := (reSearch_iff_exists r hwf x).mpr
    ⟨u', cs, v', hxdec, MatM_wbFree_ctx hm hwb u'.getLast? v'.head?⟩
  rw [hx] at this
  exact absurd this (by simp)

/-- Self-clearing of `re.sub` for patterns guarded by word boundaries on both
ends whose matches start and end in word characters: the boundary required
between a replaced chunk and an adjacent residual match cannot hold, and
interior residual matches contradict the scan. -/
theorem reSub_self_clear_wb (r : RE) (tok : List Char) (P : Char → Bool)
    (hwf : wfRE r = true) (hnul : nullableRE r = false)
    (hbrL : charsOf r '[' = false) (hbrR : charsOf r ']' = false)
    (hman : MandatoryP P r) (htokP : ∀ c ∈ tok, P c = false)
    (hth : tok.head? = some '[') (htl : tok.getLast? = some ']')
    (hstart : StartsWB r) (hend : EndsWB r)
    (hfirst : FirstCharP wordChar r) (hlast : LastCharP wordChar r) (x : List Char) :
    reSearch r (reSub r tok x) = false := by
  by_contra hcon
  rw [Bool.not_eq_false] at hcon
  obtain ⟨u, cs, v, hy, hm⟩ := (reSearch_iff_exists r hwf _).mp hcon
  have hbr := MatM_bracketFree hm hbrL hbrR
  have hP := MatM_mandatory hm hman
  obtain ⟨u', v', hxdec, hscan, hprev, hnext⟩ :=
    subD_span htokP hth htl (reSub_SubD r tok hwf hnul x) u cs v hy hbr hP
  obtain ⟨cf, csf, hcf, hwf1⟩ := MatM_firstChar hm hfirst
  obtain ⟨cl, csl, hcl, hwl1⟩ := MatM_lastChar hm hlast
  have hcshead : cs.head? = some cf := by rw [hcf]; rfl
  have hcslast : cs.getLast? = some cl := by rw [hcl]; simp
  rcases hnext with hvv | ⟨hvh, mcs, rem2, hv', hmne, hchunk⟩
  · rcases hprev with ⟨hu, hu'⟩ | ⟨hu, hu', hlasts⟩ | ⟨hul, p0, mcs, hmne, hchunk⟩
    · subst hu hu'
      refine matchHere_complete v' ?_ hscan
      rw [lastOpt_none]
      rw [← hvv]
      simpa using hm
    · refine matchHere_complete v' ?_ hscan
      rw [lastOpt_none, ← hlasts, ← hvv]
      exact hm
    · have hbnd := MatM_endsWB hchunk hend
      obtain ⟨ml, mcs', hml, hwml⟩ := MatM_lastChar hchunk hlast
      rw [hml] at hbnd
      rw [hcshead] at hbnd
      have : lastOpt (mcs' ++ [ml]) p0 = some ml := by
        unfold lastOpt
        simp
      rw [this] at hbnd
      rw [boundaryO_word_word hwml hwf1] at hbnd
      exact absurd hbnd (by simp)
  · have hbnd := MatM_startsWB hchunk hstart
    obtain ⟨mf, mcs', hmf, hwmf⟩ := MatM_firstChar hchunk hfirst
    rw [hcslast] at hbnd
    rw [hmf] at hbnd
    simp only [List.head?_cons] at hbnd
    rw [Option.or] at hbnd
    rw [boundaryO_word_word hwl1 hwmf] at hbnd
    exact absurd hbnd (by simp)

/-- Preservation for boundary-guarded patterns: substituting another
boundary-guarded pattern's matches cannot create a match of `r` that was
absent from the input. -/
theorem reSub_preserve_wb (r rs : RE) (tok : List Char) (P : Char → Bool)
    (hwf : wfRE r = true)
    (hwfs : wfRE rs = true) (hnuls : nullableRE rs = false)
    (hbrL : charsOf r '[' = false) (hbrR : charsOf r ']' = false)
    (hman : MandatoryP P r) (htokP : ∀ c ∈ tok, P c = false)
    (hth : tok.head? = some '[') (htl : tok.getLast? = some ']')
    (hfirst : FirstCharP wordChar r) (hlast : LastCharP wordChar r)
    (hstart_s : StartsWB rs) (hend_s : EndsWB rs)
    (hfirst_s : FirstCharP wordChar rs) (hlast_s : LastCharP wordChar rs)
    (x : List Char) (hx : reSearch r x = false) :
    reSearch r (reSub rs tok x) = false := by
  by_contra hcon
  rw [Bool.not_eq_false] at hcon
  obtain ⟨u, cs, v, hy, hm⟩ := (reSearch_iff_exists r hwf _).mp hcon
  have hbr := MatM_bracketFree hm hbrL hbrR
  have hP := MatM_mandatory hm hman
  obtain ⟨u', v', hxdec, hscan, hprev, hnext⟩ :=
    subD_span htokP hth htl (reSub_SubD rs tok hwfs hnuls x) u cs v hy hbr hP
  obtain ⟨cf, csf, hcf, hwf1⟩ := MatM_firstChar hm hfirst
  obtain ⟨cl, csl, hcl, hwl1⟩ := MatM_lastChar hm hlast
  have hcshead : cs.head? = some cf := by rw [hcf]; rfl
  have hcslast : cs.getLast? = some cl := by rw [hcl]; simp
  rcases hnext with hvv | ⟨hvh, mcs, rem2, hv', hmne, hchunk⟩
  · rcases hprev with ⟨hu, hu'⟩ | ⟨hu, hu', hlasts⟩ | ⟨hul, p0, mcs, hmne, hchunk⟩
    · subst hu hu'
      have : reSearch r x = true := (reSearch_iff_exists r hwf x).mpr
        ⟨[], cs, v', hxdec, by rw [← hvv]; simpa using hm⟩
      rw [hx] at this
      exact absurd this (by simp)
    · have : reSearch r x = true := (reSearch_iff_exists r hwf x).mpr
        ⟨u', cs, v', hxdec, by rw [← hlasts, ← hvv]; exact hm⟩
      rw [hx] at this
      exact absurd this (by simp)
    · have hbnd := MatM_endsWB hchunk hend_s
      obtain ⟨ml, mcs', hml, hwml⟩ := MatM_lastChar hchunk hlast_s
      rw [hml] at hbnd
      rw [hcshead] at hbnd
      have : lastOpt (mcs' ++ [ml]) p0 = some ml := by
        unfold lastOpt
        simp
      rw [this] at hbnd
      rw [boundaryO_word_word hwml hwf1] at hbnd
      exact absurd hbnd (by simp)
  · have hbnd := MatM_startsWB hchunk hstart_s
    obtain ⟨mf, mcs', hmf, hwmf⟩ := MatM_firstChar hchunk hfirst_s
    rw [hcslast] at hbnd
    rw [hmf] at hbnd
    simp only [List.head?_cons] at hbnd
    rw [Option.or] at hbnd
    rw [boundaryO_word_word hwl1 hwmf] at hbnd
    exact absurd hbnd (by simp)

/-! ### Per-pattern instances of the syntactic predicates -/

/-- Digits are word characters. -/
theorem digit_word : ∀ c, digitChar c = true → wordChar c = true := by
  intro c h
  unfold wordChar
  rw [h]
  simp

/-- Uppercase letters are word characters. -/
theorem upper_word : ∀ c, upperChar c = true → wordChar c = true := by
  intro c h
  unfold upperChar at h
  unfold wordChar
  rw [h]
  simp

/-- Every email match contains the `@`. -/
theorem emailRE_mandatory : MandatoryP (fun c => decide (c = '@')) emailRE :=
  Or.inr (Or.inl rfl)

/-- Every phone match contains a digit. -/
theorem phoneRE_mandatory : MandatoryP digitChar phoneRE :=
  Or.inr (Or.inr (Or.inl ⟨by omega, fun _ h => h⟩))

/-- Every SSN match contains a digit. -/
theorem ssnRE_mandatory : MandatoryP digitChar ssnRE :=
  Or.inr (Or.inl ⟨by omega, fun _ h => h⟩)

/-- Every credit-card match contains a digit. -/
theorem creditCardRE_mandatory : MandatoryP digitChar creditCardRE :=
  Or.inr (Or.inl (Or.inl ⟨by omega, fun _ h => h⟩))

/-- Every IP-address match contains a digit. -/
theorem ipAddressRE_mandatory : MandatoryP digitChar ipAddressRE :=
  Or.inr (Or.inl ⟨by omega, fun _ h => h⟩)

/-- Every Aadhaar match contains a digit. -/
theorem aadhaarRE_mandatory : MandatoryP digitChar aadhaarRE :=
  Or.inr (Or.inl ⟨by omega, fun _ h => h⟩)

/-- Every PAN match contains a digit. -/
theorem panRE_mandatory : MandatoryP digitChar panRE :=
  Or.inr (Or.inr (Or.inl ⟨by omega, fun _ h => h⟩))

/-- The SSN pattern asserts a boundary at its start. -/
theorem ssnRE_startsWB : StartsWB ssnRE := Or.inl trivial

/-- The SSN pattern asserts a boundary at its end. -/
theorem ssnRE_endsWB : EndsWB ssnRE :=
  Or.inl (Or.inl (Or.inl (Or.inl (Or.inl (Or.inl trivial)))))

/-- SSN matches start with a word character. -/
theorem ssnRE_firstWord : FirstCharP wordChar ssnRE :=
  Or.inr ⟨rfl, Or.inl ⟨by omega, digit_word⟩⟩

/-- SSN matches end with a word character. -/
theorem ssnRE_lastWord : LastCharP wordChar ssnRE :=
  Or.inl (Or.inl (Or.inl (Or.inl (Or.inl (Or.inr ⟨rfl, by omega, digit_word⟩)))))

/-- The credit-card pattern asserts a boundary at its start. -/
theorem creditCardRE_startsWB : StartsWB creditCardRE := Or.inl trivial

/-- The credit-card pattern asserts a boundary at its end. -/
theorem creditCardRE_endsWB : EndsWB creditCardRE :=
  Or.inl (Or.inl (Or.inl (Or.inl (Or.inl trivial))))

/-- Credit-card matches start with a word character. -/
theorem creditCardRE_firstWord : FirstCharP wordChar creditCardRE :=
  Or.inr ⟨rfl, Or.inl (Or.inl ⟨by omega, digit_word⟩)⟩

/-- Credit-card matches end with a word character. -/
theorem creditCardRE_lastWord : LastCharP wordChar creditCardRE :=
  Or.inl (Or.inl (Or.inl (Or.inl (Or.inr ⟨rfl, by omega, digit_word⟩))))

/-- The IP-address pattern asserts a boundary at its start. -/
theorem ipAddressRE_startsWB : StartsWB ipAddressRE := Or.inl trivial

/-- The IP-address pattern asserts a boundary at its end. -/
theorem ipAddressRE_endsWB : EndsWB ipAddressRE :=
  Or.inl (Or.inl (Or.inl (Or.inl (Or.inl (Or.inl (Or.inl (Or.inl trivial)))))))

/-- IP-address matches start with a word character. -/
theorem ipAddressRE_firstWord : FirstCharP wordChar ipAddressRE :=
  Or.inr ⟨rfl, Or.inl ⟨by omega, digit_word⟩⟩

/-- IP-address matches end with a word character. -/
theorem ipAddressRE_lastWord : LastCharP wordChar ipAddressRE :=
  Or.inl (Or.inl (Or.inl (Or.inl (Or.inl (Or.inl (Or.inl (Or.inr ⟨rfl, by omega, digit_word⟩)))))))

/-- The Aadhaar pattern asserts a boundary at its start. -/
theorem aadhaarRE_startsWB : StartsWB aadhaarRE := Or.inl trivial

/-- The Aadhaar pattern asserts a boundary at its end. -/
theorem aadhaarRE_endsWB : EndsWB aadhaarRE :=
  Or.inl (Or.inl (Or.inl (Or.inl (Or.inl (Or.inl trivial)))))

/-- Aadhaar matches start with a word character. -/
theorem aadhaarRE_firstWord : FirstCharP wordChar aadhaarRE :=
  Or.inr ⟨rfl, Or.inl ⟨by omega, digit_word⟩⟩

/-- Aadhaar matches end with a word character. -/
theorem aadhaarRE_lastWord : LastCharP wordChar aadhaarRE :=
  Or.inl (Or.inl (Or.inl (Or.inl (Or.inl (Or.inr ⟨rfl, by omega, digit_word⟩)))))

/-- The PAN pattern asserts a boundary at its start. -/
theorem panRE_startsWB : StartsWB panRE := Or.inl trivial

/-- The PAN pattern asserts a boundary at its end. -/
theorem panRE_endsWB : EndsWB panRE :=
  Or.inl (Or.inl (Or.inl (Or.inl trivial)))

/-- PAN matches start with a word character. -/
theorem panRE_firstWord : FirstCharP wordChar panRE :=
  Or.inr ⟨rfl, Or.inl ⟨by omega, upper_word⟩⟩

/-- PAN matches end with a word character. -/
theorem panRE_lastWord : LastCharP wordChar panRE :=
  Or.inl (Or.inl (Or.inl (Or.inr ⟨rfl, by omega, upper_word⟩)))

/-- After one full redaction pass over the catalog, no PII pattern matches
the result, so a second pass is the identity (list level). -/
theorem redactList_idem (d : List Char) :
    PII_PATTERNS.foldl (fun acc pr => reSub pr.2 (Guardrails.redactToken pr.1).data acc)
        (PII_PATTERNS.foldl (fun acc pr => reSub pr.2 (Guardrails.redactToken pr.1).data acc) d) =
      PII_PATTERNS.foldl (fun acc pr => reSub pr.2 (Guardrails.redactToken pr.1).data acc) d := by
  simp only [PII_PATTERNS, List.foldl_cons, List.foldl_nil]
  set x1 := reSub emailRE (Guardrails.redactToken "email").data d with hx1
  set x2 := reSub phoneRE (Guardrails.redactToken "phone").data x1 with hx2
  set x3 := reSub ssnRE (Guardrails.redactToken "ssn").data x2 with hx3
  set x4 := reSub creditCardRE (Guardrails.redactToken "credit_card").data x3 with hx4
  set x5 := reSub ipAddressRE (Guardrails.redactToken "ip_address").data x4 with hx5
  set x6 := reSub aadhaarRE (Guardrails.redactToken "aadhaar").data x5 with hx6
  set x7 := reSub panRE (Guardrails.redactToken "pan").data x6 with hx7
  have he1 : reSearch emailRE x1 = false := by
    rw [hx1]
    exact reSub_self_clear_wbFree emailRE _ (fun c => decide (c = '@'))
      (by decide) (by decide) (by decide) (by decide) emailRE_mandatory
      (by decide) (by decide) (by decide) (by decide) d
  have he2 : reSearch emailRE x2 = false := by
    rw [hx2]
    exact reSub_preserve_wbFree emailRE phoneRE _ (fun c => decide (c = '@'))
      (by decide) (by decide) (by decide) (by decide) (by decide) emailRE_mandatory
      (by decide) (by decide) (by decide) (by decide) x1 he1
  have he3 : reSearch emailRE x3 = false := by
    rw [hx3]
    exact reSub_preserve_wbFree emailRE ssnRE _ (fun c => decide (c = '@'))
      (by decide) (by decide) (by decide) (by decide) (by decide) emailRE_mandatory
      (by decide) (by decide) (by decide) (by decide) x2 he2
  have he4 : reSearch emailRE x4 = false := by
    rw [hx4]
    exact reSub_preserve_wbFree emailRE creditCardRE _ (fun c => decide (c = '@'))
      (by decide) (by decide) (by decide) (by decide) (by decide) emailRE_mandatory
      (by decide) (by decide) (by decide) (by decide) x3 he3
  have he5 : reSearch emailRE x5 = false := by
    rw [hx5]
    exact reSub_preserve_wbFree emailRE ipAddressRE _ (fun c => decide (c = '@'))
      (by decide) (by decide) (by decide) (by decide) (by decide) emailRE_mandatory
      (by decide) (by decide) (by decide) (by decide) x4 he4
  have he6 : reSearch emailRE x6 = false := by
    rw [hx6]
    exact reSub_preserve_wbFree emailRE aadhaarRE _ (fun c => decide (c = '@'))
      (by decide) (by decide) (by decide) (by decide) (by decide) emailRE_mandatory
      (by decide) (by decide) (by decide) (by decide) x5 he5
  have he7 : reSearch emailRE x7 = false := by
    rw [hx7]
    exact reSub_preserve_wbFree emailRE panRE _ (fun c => decide (c = '@'))
      (by decide) (by decide) (by decide) (by decide) (by decide) emailRE_mandatory
      (by decide) (by decide) (by decide) (by decide) x6 he6
  have hp2 : reSearch phoneRE x2 = false := by
    rw [hx2]
    exact reSub_self_clear_wbFree phoneRE _ digitChar
      (by decide) (by decide) (by decide) (by decide) phoneRE_mandatory
      (by decide) (by decide) (by decide) (by decide) x1
  have hp3 : reSearch phoneRE x3 = false := by
    rw [hx3]
    exact reSub_preserve_wbFree phoneRE ssnRE _ digitChar
      (by decide) (by decide) (by decide) (by decide) (by decide) phoneRE_mandatory
      (by decide) (by decide) (by decide) (by decide) x2 hp2
  have hp4 : reSearch phoneRE x4 = false := by
    rw [hx4]
    exact reSub_preserve_wbFree phoneRE creditCardRE _ digitChar
      (by decide) (by decide) (by decide) (by decide) (by decide) phoneRE_mandatory
      (by decide) (by decide) (by decide) (by decide) x3 hp3
  have hp5 : reSearch phoneRE x5 = false := by
    rw [hx5]
    exact reSub_preserve_wbFree phoneRE ipAddressRE _ digitChar
      (by decide) (by decide) (by decide) (by decide) (by decide) phoneRE_mandatory
      (by decide) (by decide) (by decide) (by decide) x4 hp4
  have hp6 : reSearch phoneRE x6 = false := by
    rw [hx6]
    exact reSub_preserve_wbFree phoneRE aadhaarRE _ digitChar
      (by decide) (by decide) (by decide) (by decide) (by decide) phoneRE_mandatory
      (by decide) (by decide) (by decide) (by decide) x5 hp5
  have hp7 : reSearch phoneRE x7 = false := by
    rw [hx7]
    exact reSub_preserve_wbFree phoneRE panRE _ digitChar
      (by decide) (by decide) (by decide) (by decide) (by decide) phoneRE_mandatory
      (by decide) (by decide) (by decide) (by decide) x6 hp6
  have hs3 : reSearch ssnRE x3 = false := by
    rw [hx3]
    exact reSub_self_clear_wb ssnRE _ digitChar
      (by decide) (by decide) (by decide) (by decide) ssnRE_mandatory
      (by decide) (by decide) (by decide)
      ssnRE_startsWB ssnRE_endsWB ssnRE_firstWord ssnRE_lastWord x2
  have hs4 : reSearch ssnRE x4 = false := by
    rw [hx4]
    exact reSub_preserve_wb ssnRE creditCardRE _ digitChar
      (by decide) (by decide) (by decide) (by decide) (by decide) ssnRE_mandatory
      (by decide) (by decide) (by decide) ssnRE_firstWord ssnRE_lastWord
      creditCardRE_startsWB creditCardRE_endsWB creditCardRE_firstWord creditCardRE_lastWord
      x3 hs3
  have hs5 : reSearch ssnRE x5 = false := by
    rw [hx5]
    exact reSub_preserve_wb ssnRE ipAddressRE _ digitChar
      (by decide) (by decide) (by decide) (by decide) (by decide) ssnRE_mandatory
      (by decide) (by decide) (by decide) ssnRE_firstWord ssnRE_lastWord
      ipAddressRE_startsWB ipAddressRE_endsWB ipAddressRE_firstWord ipAddressRE_lastWord
      x4 hs4
  have hs6 : reSearch ssnRE x6 = false := by
    rw [hx6]
    exact reSub_preserve_wb ssnRE aadhaarRE _ digitChar
      (by decide) (by decide) (by decide) (by decide) (by decide) ssnRE_mandatory
      (by decide) (by decide) (by decide) ssnRE_firstWord ssnRE_lastWord
      aadhaarRE_startsWB aadhaarRE_endsWB aadhaarRE_firstWord aadhaarRE_lastWord
      x5 hs5
  have hs7 : reSearch ssnRE x7 = false := by
    rw [hx7]
    exact reSub_preserve_wb ssnRE panRE _ digitChar
      (by decide) (by decide) (by decide) (by decide) (by decide) ssnRE_mandatory
      (by decide) (by decide) (by decide) ssnRE_firstWord ssnRE_lastWord
      panRE_startsWB panRE_endsWB panRE_firstWord panRE_lastWord
      x6 hs6
  have hc4 : reSearch creditCardRE x4 = false := by
    rw [hx4]
    exact reSub_self_clear_wb creditCardRE _ digitChar
      (by decide) (by decide) (by decide) (by decide) creditCardRE_mandatory
      (by decide) (by decide) (by decide)
      creditCardRE_startsWB creditCardRE_endsWB creditCardRE_firstWord creditCardRE_lastWord x3
  have hc5 : reSearch creditCardRE x5 = false := by
    rw [hx5]
    exact reSub_preserve_wb creditCardRE ipAddressRE _ digitChar
      (by decide) (by decide) (by decide) (by decide) (by decide) creditCardRE_mandatory
      (by decide) (by decide) (by decide) creditCardRE_firstWord creditCardRE_lastWord
      ipAddressRE_startsWB ipAddressRE_endsWB ipAddressRE_firstWord ipAddressRE_lastWord
      x4 hc4
  have hc6 : reSearch creditCardRE x6 = false := by
    rw [hx6]
    exact reSub_preserve_wb creditCardRE aadhaarRE _ digitChar
      (by decide) (by decide) (by decide) (by decide) (by decide) creditCardRE_mandatory
      (by decide) (by decide) (by decide) creditCardRE_firstWord creditCardRE_lastWord
      aadhaarRE_startsWB aadhaarRE_endsWB aadhaarRE_firstWord aadhaarRE_lastWord
      x5 hc5
  have hc7 : reSearch creditCardRE x7 = false := by
    rw [hx7]
    exact reSub_preserve_wb creditCardRE panRE _ digitChar
      (by decide) (by decide) (by decide) (by decide) (by decide) creditCardRE_mandatory
      (by decide) (by decide) (by decide) creditCardRE_firstWord creditCardRE_lastWord
      panRE_startsWB panRE_endsWB panRE_firstWord panRE_lastWord
      x6 hc6
  have hi5 : reSearch ipAddressRE x5 = false := by
    rw [hx5]
    exact reSub_self_clear_wb ipAddressRE _ digitChar
      (by decide) (by decide) (by decide) (by decide) ipAddressRE_mandatory
      (by decide) (by decide) (by decide)
      ipAddressRE_startsWB ipAddressRE_endsWB ipAddressRE_firstWord ipAddressRE_lastWord x4
  have hi6 : reSearch ipAddressRE x6 = false := by
    rw [hx6]
    exact reSub_preserve_wb ipAddressRE aadhaarRE _ digitChar
      (by decide) (by decide) (by decide) (by decide) (by decide) ipAddressRE_mandatory
      (by decide) (by decide) (by decide) ipAddressRE_firstWord ipAddressRE_lastWord
      aadhaarRE_startsWB aadhaarRE_endsWB aadhaarRE_firstWord aadhaarRE_lastWord
      x5 hi5
  have hi7 : reSearch ipAddressRE x7 = false := by
    rw [hx7]
    exact reSub_preserve_wb ipAddressRE panRE _ digitChar
      (by decide) (by decide) (by decide) (by decide) (by decide) ipAddressRE_mandatory
      (by decide) (by decide) (by decide) ipAddressRE_firstWord ipAddressRE_lastWord
      panRE_startsWB panRE_endsWB panRE_firstWord panRE_lastWord
      x6 hi6
  have ha6 : reSearch aadhaarRE x6 = false := by
    rw [hx6]
    exact reSub_self_clear_wb aadhaarRE _ digitChar
      (by decide) (by decide) (by decide) (by decide) aadhaarRE_mandatory
      (by decide) (by decide) (by decide)
      aadhaarRE_startsWB aadhaarRE_endsWB aadhaarRE_firstWord aadhaarRE_lastWord x5
  have ha7 : reSearch aadhaarRE x7 = false := by
    rw [hx7]
    exact reSub_preserve_wb aadhaarRE panRE _ digitChar
      (by decide) (by decide) (by decide) (by decide) (by decide) aadhaarRE_mandatory
      (by decide) (by decide) (by decide) aadhaarRE_firstWord aadhaarRE_lastWord
      panRE_startsWB panRE_endsWB panRE_firstWord panRE_lastWord
      x6 ha6
  have hn7 : reSearch panRE x7 = false := by
    rw [hx7]
    exact reSub_self_clear_wb panRE _ digitChar
      (by decide) (by decide) (by decide) (by decide) panRE_mandatory
      (by decide) (by decide) (by decide)
      panRE_startsWB panRE_endsWB panRE_firstWord panRE_lastWord x6
  rw [reSub_eq_of_reSearch_false emailRE _ x7 he7,
    reSub_eq_of_reSearch_false phoneRE _ x7 hp7,
    reSub_eq_of_reSearch_false ssnRE _ x7 hs7,
    reSub_eq_of_reSearch_false creditCardRE _ x7 hc7,
    reSub_eq_of_reSearch_false ipAddressRE _ x7 hi7,
    reSub_eq_of_reSearch_false aadhaarRE _ x7 ha7,
    reSub_eq_of_reSearch_false panRE _ x7 hn7]

/-- C4: redaction is idempotent — a second `redact_pii` pass over an already
redacted text is the identity.  After one pass no PII pattern matches the
result any more (in particular no `[REDACTED_<CATEGORY>]` placeholder
introduces a new match), so every substitution of the second pass leaves the
text unchanged. -/
theorem redact_pii_idempotent (s : String) :
    Guardrails.redact_pii (Guardrails.redact_pii s) = Guardrails.redact_pii s :=
  congrArg String.mk (redactList_idem s.data)

/-- Witness for C4 at a concrete input containing PII: redacting the already
redacted text changes nothing. -/
theorem redact_pii_idempotent_witness :
    Guardrails.redact_pii (Guardrails.redact_pii "My email is alice@example.com") =
      Guardrails.redact_pii "My email is alice@example.com" :=
  redact_pii_idempotent "My email is alice@example.com"
